import Mathlib

/-!
Verification of the nCountr account-hierarchy engine
(`src/api/account.cpp`, `src/api/sqlite_datastore/account.cpp`).

The SQLite datastore keeps one flat `account` table with columns
`id` (INTEGER PRIMARY KEY), `full_path` (TEXT), `description` (TEXT),
`account_type` (TEXT), plus opening date/balance columns that are only
ever written after all business-rule checks and are never consulted by
any check.  We embed a table row as `Rec` and the table as the list
`Store` (rows in insertion order, which is how the unordered SQL
queries of the source return them).

Paths are embedded as `List Char` (the C++ uses `std::wstring`), so
that the `boost::split` / `boost::join` semantics of
`account::split_path` / `account::concatenate_path` can be mirrored
character by character.

Every operation of `sqlite::account` that the specification claims
talk about is embedded: `make_new`, `set_name`, `set_parent`,
`set_full_path` (the recursive cascading path rewrite),
`set_account_type`, `destroy`, `find_by_full_path`,
`descendants_sqlite` (an SQL `LIKE` prefix query), `children_sqlite`
and `max_id`.  Errors (`throw error(...)` in the C++) are modelled by
an `Outcome` that carries the store at the moment of the throw, since
the SQL writes already issued before an exception are not rolled back
(there are no transactions in the source).  The unbounded recursion of
`set_full_path` is given a fuel parameter; fuel exhaustion is reported
as the distinguished error `Err.fuel`, which corresponds to a
non-terminating (stack-overflowing) run of the C++ code.
-/

namespace NCountr

/-- The account path separator, `api::account::account_path_separator`
(the one-character string `"/"`). -/
def sep : Char := '/'

/-- Account paths: the character list of the C++ `std::wstring`. -/
abbrev Path := List Char

/-- `api::account::split_path`: `boost::split` on the separator
character.  An empty string yields one empty segment, and consecutive
separators yield empty segments, exactly as `boost::split` with
`is_any_of("/")` does. -/
def split_path : Path → List Path
  | [] => [[]]
  | c :: rest =>
    if c = sep then [] :: split_path rest
    else
      match split_path rest with
      | [] => [[c]]
      | s :: ss => (c :: s) :: ss

/-- `api::account::concatenate_path`: `boost::algorithm::join` with the
separator. -/
def concatenate_path : List Path → Path
  | [] => []
  | [x] => x
  | x :: xs => x ++ sep :: concatenate_path xs

/-- `api::account::valid_name`: the name is valid iff
`n.find(account_path_separator) == npos`, i.e. iff the separator does
not occur in it.  (The source performs no emptiness check.) -/
def valid_name (n : Path) : Bool := !(n.contains sep)

/-- The last segment of a path (`split_path(p).back()`); every
non-empty `std::vector` access in the source is on a vector produced by
`split_path`, which is never empty. -/
def lastSeg (p : Path) : Path := (split_path p).getLastD []

/-- `sqlite::account::parent_path` (account.cpp:217): split the full
path, and if there is more than one segment, drop the last segment and
re-join; a single segment means the account is at the root and the
parent path is empty. -/
def parent_path (p : Path) : Path :=
  if (split_path p).length = 1 then []
  else concatenate_path (split_path p).dropLast

/-- SQL `LIKE` matching, as used by `descendants_sqlite` for the query
`full_path LIKE '<full_path>/%'`.  `%` matches any sequence of
characters and `_` matches any single character; the pattern is built
by string concatenation in the source, so wildcard characters inside
an account's own path act as wildcards.  The source opens a plain
SQLite connection (no `case_sensitive_like` pragma, no custom
collation), so the default `LIKE` applies: ASCII letters are compared
case-insensitively (`sqlite3UpperToLower` folds `A`–`Z`, which is
`Char.toLower` on that range), every other character only matches
itself.  Structural on the pattern: `%` tries every split point of the
remaining text. -/
def likeMatch : Path → Path → Bool
  | [], s => s.isEmpty
  | c :: ps, s =>
    if c = '%' then
      (List.range (s.length + 1)).any (fun k => likeMatch ps (s.drop k))
    else
      match s with
      | [] => false
      | d :: ss => (c = '_' || c.toLower = d.toLower) && likeMatch ps ss

/-- The ASCII case folding the default `LIKE` applies to both sides of
every character comparison, extended to a whole path. -/
def foldPath (q : Path) : Path := q.map Char.toLower

/-- `api::account::type_t`. -/
inductive AcctType
  | asset
  | liability
  | income
  | expense
deriving DecidableEq

/-- `api::account::compatible_parent_child_types` (api/account.h):
asset/liability may pair only with asset/liability, and
income/expense only with income/expense. -/
def compatible_parent_child_types (t1 t2 : AcctType) : Bool :=
  if t1 = AcctType.asset ∨ t1 = AcctType.liability then
    if t2 = AcctType.asset ∨ t2 = AcctType.liability then true else false
  else
    if t2 = AcctType.asset ∨ t2 = AcctType.liability then false else true

/-- One row of the `account` table.  The opening date/balance columns
are omitted: they are written only by the asset/liability overloads
after every business-rule check has passed and are read by no check,
so they are orthogonal to all claims under verification. -/
structure Rec where
  id : Nat
  full_path : Path
  acctType : AcctType
  description : Option Path
deriving DecidableEq

/-- The `account` table: rows in insertion order. -/
abbrev Store := List Rec

/-- The error kinds raised by the embedded operations (each `throw
error(...)` site of the source is mapped to one of these), plus
`fuel`, which marks a run of the recursive cascade that exceeds the
fuel bound (a non-terminating run of the C++ code). -/
inductive Err
  | emptyPath
  | duplicatePath
  | parentNotFound
  | incompatibleTypes
  | invalidName
  | hasChildren
  | recordNotFound
  | fuel
deriving DecidableEq

/-- Result of an operation: success with the new store, or an error
together with the store at the moment of the throw (writes already
issued are kept, as in the transaction-less source). -/
inductive Outcome
  | ok (s : Store)
  | err (e : Err) (s : Store)
deriving DecidableEq

/-- The store carried by an outcome. -/
def Outcome.store : Outcome → Store
  | .ok s => s
  | .err _ s => s

/-- Whether an outcome is a success. -/
def Outcome.isOk : Outcome → Bool
  | .ok _ => true
  | .err _ _ => false

/-- `sqlite::account::find_by_full_path`: `SELECT * FROM account WHERE
full_path = :full_path`, first row if any. -/
def find_by_full_path (s : Store) (p : Path) : Option Rec :=
  s.find? (fun r => decide (r.full_path = p))

/-- `sqlite::account::find_by_id`: `SELECT * FROM account WHERE id =
:id`, first row if any. -/
def find_by_id (s : Store) (i : Nat) : Option Rec :=
  s.find? (fun r => decide (r.id = i))

/-- `sqlite::account::max_id`: `SELECT MAX(id) FROM account`, with a
NULL result (empty table) read as 0. -/
def max_id (s : Store) : Nat := s.foldl (fun m r => max m r.id) 0

/-- `UPDATE account SET full_path = :v WHERE id = i`
(`updateSingleRecordFieldValue` in db_utils.h). -/
def updateFullPath (s : Store) (i : Nat) (p : Path) : Store :=
  s.map (fun r => if r.id = i then { r with full_path := p } else r)

/-- `UPDATE account SET account_type = :v WHERE id = i`. -/
def updateAcctType (s : Store) (i : Nat) (t : AcctType) : Store :=
  s.map (fun r => if r.id = i then { r with acctType := t } else r)

/-- `sqlite::account::descendants_sqlite` (account.cpp:291): a
`SELECT` with `full_path LIKE '<fp>/%'`, each returned row then being
re-looked-up by `find_existing` on its full path (the id of the first
row with that path). -/
def descendants_of (s : Store) (fp : Path) : List Nat :=
  (s.filter (fun r => likeMatch (fp ++ [sep, '%']) r.full_path)).map
    (fun r =>
      match find_by_full_path s r.full_path with
      | some r' => r'.id
      | none => 0)

/-- `sqlite::account::children_sqlite` (account.cpp:279): the
descendants whose `parent_path()` equals the account's own full path. -/
def children_ids (s : Store) (fp : Path) : List Nat :=
  (descendants_of s fp).filter (fun c =>
    match find_by_id s c with
    | some rc => decide (parent_path rc.full_path = fp)
    | none => false)

/-- `sqlite::account::set_full_path` (account.cpp:328), the recursive
cascading path rewrite, with a fuel bound on the recursion depth.
Order of the checks follows the source: empty-path check; no-op return
if `p` is already the account's full path; duplicate check; parent
existence and type-compatibility check when the new path has a parent
component; name validity check; then the single `UPDATE` of this
record followed by the recursive rewrite of the children computed
*before* the update.  The source reads the record twice (`full_path()`
and `account_type()`); both reads hit the same row, embedded as one
`find_by_id`.  The child loop aborts at the first error, keeping the
writes already made. -/
def sfp_go : Nat → Store → Nat → Path → Outcome
  | 0, s, _, _ => .err .fuel s
  | fuel + 1, s, i, p =>
    if p = [] then .err .emptyPath s
    else
      match find_by_id s i with
      | none => .err .recordNotFound s
      | some ri =>
        if ri.full_path = p then .ok s
        else if (find_by_full_path s p).isSome then .err .duplicatePath s
        else if (split_path p).dropLast = [] then
          if valid_name (lastSeg p) = false then .err .invalidName s
          else
            (children_ids s ri.full_path).foldl
              (fun acc c =>
                match acc with
                | .err e t => .err e t
                | .ok t =>
                  match find_by_id t c with
                  | none => .err .recordNotFound t
                  | some rc => sfp_go fuel t c (p ++ sep :: lastSeg rc.full_path))
              (.ok (updateFullPath s i p))
        else
          match find_by_full_path s (concatenate_path (split_path p).dropLast) with
          | none => .err .parentNotFound s
          | some pr =>
            if compatible_parent_child_types pr.acctType ri.acctType = false then
              .err .incompatibleTypes s
            else if valid_name (lastSeg p) = false then .err .invalidName s
            else
              (children_ids s ri.full_path).foldl
                (fun acc c =>
                  match acc with
                  | .err e t => .err e t
                  | .ok t =>
                    match find_by_id t c with
                    | none => .err .recordNotFound t
                    | some rc => sfp_go fuel t c (p ++ sep :: lastSeg rc.full_path))
                (.ok (updateFullPath s i p))

/-- One step of the child-rewriting loop of `set_full_path`: the body
of the `for (auto child : children)` loop at account.cpp:390, with an
already-raised error propagated unchanged. -/
def sfp_step (fuel : Nat) (p : Path) (acc : Outcome) (c : Nat) : Outcome :=
  match acc with
  | .err e t => .err e t
  | .ok t =>
    match find_by_id t c with
    | none => .err .recordNotFound t
    | some rc => sfp_go fuel t c (p ++ sep :: lastSeg rc.full_path)

/-- The child-rewriting loop of `set_full_path` over a list of child
ids. -/
def sfp_children (fuel : Nat) (s : Store) (kids : List Nat) (p : Path) : Outcome :=
  kids.foldl (sfp_step fuel p) (.ok s)

/-- `sqlite::account::set_full_path` at its public entry point.  The
fuel `s.length + 1` is enough for any run whose chain of nested child
rewrites visits distinct records; runs needing more fuel correspond to
the non-terminating recursions of the C++ code. -/
def set_full_path (s : Store) (i : Nat) (p : Path) : Outcome :=
  sfp_go (s.length + 1) s i p

/-- `sqlite::account::set_name` (account.cpp:195): validity check on
the new name, then replace the last segment of the current full path
and delegate to `set_full_path`. -/
def set_name (s : Store) (i : Nat) (n : Path) : Outcome :=
  if valid_name n = false then .err .invalidName s
  else
    match find_by_id s i with
    | none => .err .recordNotFound s
    | some ri =>
      set_full_path s i (concatenate_path ((split_path ri.full_path).dropLast ++ [n]))

/-- `sqlite::account::set_parent` (account.cpp:242): the new full path
is the account's name alone (root) or the new parent's full path
extended with the account's name; all checks are delegated to
`set_full_path`. -/
def set_parent (s : Store) (i : Nat) (parent : Option Nat) : Outcome :=
  match find_by_id s i with
  | none => .err .recordNotFound s
  | some ri =>
    match parent with
    | none => set_full_path s i (lastSeg ri.full_path)
    | some pid =>
      match find_by_id s pid with
      | none => .err .recordNotFound s
      | some pr =>
        set_full_path s i (concatenate_path (split_path pr.full_path ++ [lastSeg ri.full_path]))

/-- `sqlite::account::make_new` (account.cpp:30 and account.cpp:79 —
both overloads perform the same checks and the same single `INSERT`;
the opening-data arguments of the second overload are written after
every check and read by none).  Name validity; if a parent is given,
parent type compatibility and the full path under the parent;
duplicate full-path check; new id `max_id + 1`; one appended row. -/
def make_new (s : Store) (nm : Path) (t : AcctType) (parent : Option Nat)
    (descr : Option Path) : Outcome :=
  if valid_name nm = false then .err .invalidName s
  else
    match parent with
    | none =>
      if (find_by_full_path s nm).isSome then .err .duplicatePath s
      else .ok (s ++ [{ id := max_id s + 1, full_path := nm, acctType := t,
                        description := descr }])
    | some pid =>
      match find_by_id s pid with
      | none => .err .recordNotFound s
      | some pr =>
        if compatible_parent_child_types pr.acctType t = false then
          .err .incompatibleTypes s
        else if (find_by_full_path s
            (concatenate_path (split_path pr.full_path ++ [nm]))).isSome then
          .err .duplicatePath s
        else .ok (s ++ [{ id := max_id s + 1,
                          full_path := concatenate_path (split_path pr.full_path ++ [nm]),
                          acctType := t, description := descr }])

/-- `sqlite::account::set_account_type` (account.cpp:431 and
account.cpp:471 — both overloads perform the same checks and the same
type `UPDATE`; the opening-data writes of the second overload happen
after every check).  Check the parent found by full-path lookup of
`parent_path()` (the lookup is performed even when the parent path is
the empty string), check every child, then update the type column. -/
def set_account_type (s : Store) (i : Nat) (t : AcctType) : Outcome :=
  match find_by_id s i with
  | none => .err .recordNotFound s
  | some ri =>
    match find_by_full_path s (parent_path ri.full_path) with
    | some pr =>
      if compatible_parent_child_types pr.acctType t = false then
        .err .incompatibleTypes s
      else if (children_ids s ri.full_path).any (fun c =>
          match find_by_id s c with
          | some rc => compatible_parent_child_types t rc.acctType = false
          | none => false) then .err .incompatibleTypes s
      else .ok (updateAcctType s i t)
    | none =>
      if (children_ids s ri.full_path).any (fun c =>
          match find_by_id s c with
          | some rc => compatible_parent_child_types t rc.acctType = false
          | none => false) then .err .incompatibleTypes s
      else .ok (updateAcctType s i t)

/-- `sqlite::account::destroy` (account.cpp:144): refuse when the
descendants query returns any row, otherwise `DELETE FROM account
WHERE id = :id`. -/
def destroy (s : Store) (i : Nat) : Outcome :=
  match find_by_id s i with
  | none => .err .recordNotFound s
  | some ri =>
    if 0 < (descendants_of s ri.full_path).length then .err .hasChildren s
    else .ok (s.filter (fun r => decide (r.id ≠ i)))

/-- The operations quantified over by the uniqueness claim: create,
rename and reparent. -/
inductive Op
  | create (nm : Path) (t : AcctType) (parent : Option Nat) (descr : Option Path)
  | rename (i : Nat) (n : Path)
  | reparent (i : Nat) (parent : Option Nat)

/-- Run one operation, keeping the store of the outcome whether the
operation succeeded or raised (a raise leaves the writes already
issued, as in the transaction-less source). -/
def applyOp (s : Store) : Op → Store
  | .create nm t parent descr => (make_new s nm t parent descr).store
  | .rename i n => (set_name s i n).store
  | .reparent i parent => (set_parent s i parent).store

/-- Run a sequence of operations. -/
def applyOps (s : Store) (ops : List Op) : Store := ops.foldl applyOp s

/-- The ids of the rows are pairwise distinct (`id` is the INTEGER
PRIMARY KEY of the table). -/
def NodupIds (s : Store) : Prop := (s.map (fun r => r.id)).Nodup

/-- The full paths of the rows are pairwise distinct (the `UNIQUE`
column of the schema; the property the uniqueness claim is about). -/
def NodupPaths (s : Store) : Prop := (s.map (fun r => r.full_path)).Nodup

/-- Every row whose parent path is non-empty has a row at that parent
path (spec invariant 2: no orphaned paths). -/
def OrphanFree (s : Store) : Prop :=
  ∀ r ∈ s, parent_path r.full_path ≠ [] →
    ∃ u ∈ s, u.full_path = parent_path r.full_path

/-- Every row of the subtree strictly below path `fp` has a row at its
parent path. -/
def SubtreeClosed (s : Store) (fp : Path) : Prop :=
  ∀ r ∈ s, fp ++ [sep] <+: r.full_path →
    ∃ u ∈ s, u.full_path = parent_path r.full_path

instance (s : Store) : Decidable (NodupIds s) := by
  unfold NodupIds
  infer_instance

instance (s : Store) : Decidable (NodupPaths s) := by
  unfold NodupPaths
  infer_instance

instance (s : Store) : Decidable (OrphanFree s) := by
  unfold OrphanFree
  infer_instance

instance (s : Store) (fp : Path) : Decidable (SubtreeClosed s fp) := by
  unfold SubtreeClosed
  infer_instance

/-- A string `String.toList` abbreviation for readable statements. -/
def toL (s : String) : Path := s.toList

/-! ### Path-engine algebra -/

theorem split_path_ne_nil (p : Path) : split_path p ≠ [] := by
  cases p with
  | nil => simp [split_path]
  | cons c rest =>
    simp only [split_path]
    split
    · simp
    · cases h : split_path rest <;> simp

theorem concatenate_path_cons (x : Path) (xs : List Path) (h : xs ≠ []) :
    concatenate_path (x :: xs) = x ++ sep :: concatenate_path xs := by
  cases xs with
  | nil => exact absurd rfl h
  | cons y ys => rfl

/-- The split/join round trip: joining the segments of any path gives
back the path. -/
theorem concat_split (p : Path) : concatenate_path (split_path p) = p := by
  induction p with
  | nil => rfl
  | cons c rest ih =>
    simp only [split_path]
    by_cases hc : c = sep
    · rw [if_pos hc, concatenate_path_cons _ _ (split_path_ne_nil rest), ih, hc]
      rfl
    · rw [if_neg hc]
      rcases h : split_path rest with - | ⟨s, ss⟩
      · exact absurd h (split_path_ne_nil rest)
      · rw [h] at ih
        cases ss with
        | nil =>
          simp only [concatenate_path] at ih ⊢
          rw [ih]
        | cons z zs =>
          rw [concatenate_path_cons _ _ (by simp)] at ih
          rw [concatenate_path_cons _ _ (by simp), List.cons_append, ih]

theorem sep_not_mem_of_mem_split {p : Path} {t : Path} (h : t ∈ split_path p) :
    sep ∉ t := by
  induction p generalizing t with
  | nil =>
    simp only [split_path, List.mem_singleton] at h
    simp [h]
  | cons c rest ih =>
    simp only [split_path] at h
    by_cases hc : c = sep
    · rw [if_pos hc] at h
      rcases List.mem_cons.1 h with h | h
      · simp [h]
      · exact ih h
    · rw [if_neg hc] at h
      rcases hs : split_path rest with - | ⟨s, ss⟩
      · exact absurd hs (split_path_ne_nil rest)
      · rw [hs] at h
        rcases List.mem_cons.1 h with h | h
        · subst h
          intro hmem
          rcases List.mem_cons.1 hmem with hmem | hmem
          · exact hc hmem.symm
          · exact ih (by rw [hs]; exact List.mem_cons_self s ss) hmem
        · exact ih (by rw [hs]; exact List.mem_cons_of_mem s h)

theorem split_of_sepfree {n : Path} (h : sep ∉ n) : split_path n = [n] := by
  induction n with
  | nil => rfl
  | cons c rest ih =>
    have hc : c ≠ sep := fun hc => h (by simp [hc])
    have hrest : sep ∉ rest := fun hr => h (List.mem_cons_of_mem c hr)
    simp only [split_path, if_neg hc, ih hrest]

theorem split_path_cons_sep (rest : Path) :
    split_path (sep :: rest) = [] :: split_path rest := by
  simp [split_path]

theorem split_path_cons_ne {c : Char} (hc : c ≠ sep) (rest : Path) :
    split_path (c :: rest) =
      (c :: (split_path rest).headI) :: (split_path rest).tail := by
  simp only [split_path, if_neg hc]
  rcases hs : split_path rest with - | ⟨s, ss⟩
  · exact absurd hs (split_path_ne_nil rest)
  · rfl

theorem split_append (x y : Path) :
    split_path (x ++ sep :: y) = split_path x ++ split_path y := by
  induction x with
  | nil => simp [split_path]
  | cons c rest ih =>
    by_cases hc : c = sep
    · subst hc
      rw [List.cons_append, split_path_cons_sep, ih, split_path_cons_sep,
        List.cons_append]
    · rw [List.cons_append, split_path_cons_ne hc, ih, split_path_cons_ne hc,
        List.cons_append]
      rcases hs : split_path rest with - | ⟨s, ss⟩
      · exact absurd hs (split_path_ne_nil rest)
      · simp

theorem concat_append (L1 L2 : List Path) (h1 : L1 ≠ []) (h2 : L2 ≠ []) :
    concatenate_path (L1 ++ L2) =
      concatenate_path L1 ++ sep :: concatenate_path L2 := by
  induction L1 with
  | nil => exact absurd rfl h1
  | cons x xs ih =>
    cases xs with
    | nil => rw [List.singleton_append, concatenate_path_cons _ _ h2]; rfl
    | cons y ys =>
      rw [List.cons_append, concatenate_path_cons _ _ (by simp),
        concatenate_path_cons _ _ (by simp), ih (by simp), List.append_assoc]
      rfl

theorem concat_snoc (L : List Path) (n : Path) (h : L ≠ []) :
    concatenate_path (L ++ [n]) = concatenate_path L ++ sep :: n :=
  concat_append L [n] h (by simp)

theorem split_length_one_iff {q : Path} :
    (split_path q).length = 1 ↔ sep ∉ q := by
  constructor
  · intro h hmem
    rcases hs : split_path q with - | ⟨s, ss⟩
    · exact absurd hs (split_path_ne_nil q)
    · rw [hs] at h
      simp at h
      subst h
      have : q = s := by
        have := concat_split q
        rw [hs] at this
        simpa [concatenate_path] using this.symm
      exact sep_not_mem_of_mem_split (by rw [hs]; exact List.mem_cons_self s []) (this ▸ hmem)
  · intro h
    rw [split_of_sepfree h]
    rfl

theorem sep_mem_of_pfx {fp q : Path} (h : fp ++ [sep] <+: q) : sep ∈ q :=
  h.sublist.mem (by simp)

theorem two_le_split_length {q : Path} (h : sep ∈ q) :
    2 ≤ (split_path q).length := by
  rcases hs : split_path q with - | ⟨s, ss⟩
  · exact absurd hs (split_path_ne_nil q)
  · cases ss with
    | nil =>
      exfalso
      have h1 : (split_path q).length = 1 := by rw [hs]; rfl
      exact split_length_one_iff.1 h1 h
    | cons z zs => simp

theorem lastSeg_mem {q : Path} : lastSeg q ∈ split_path q := by
  unfold lastSeg
  rcases hs : split_path q with - | ⟨s, ss⟩
  · exact absurd hs (split_path_ne_nil q)
  · rw [List.getLastD_eq_getLast?, List.getLast?_eq_getLast _ (by simp)]
    simp [List.getLast_mem]

theorem sep_not_mem_lastSeg (q : Path) : sep ∉ lastSeg q :=
  sep_not_mem_of_mem_split lastSeg_mem

/-- Decomposition of a non-root path: it is its parent path, the
separator, then its last segment. -/
theorem parent_decomp {q : Path} (h : 2 ≤ (split_path q).length) :
    q = parent_path q ++ sep :: lastSeg q := by
  have hne : split_path q ≠ [] := split_path_ne_nil q
  have hd : (split_path q).dropLast ≠ [] := by
    intro hempty
    have := List.length_dropLast (split_path q)
    rw [hempty] at this
    simp at this
    omega
  have hlen : (split_path q).length ≠ 1 := by omega
  unfold parent_path
  rw [if_neg hlen]
  calc q = concatenate_path (split_path q) := (concat_split q).symm
    _ = concatenate_path ((split_path q).dropLast ++ [(split_path q).getLast hne]) := by
        rw [List.dropLast_append_getLast hne]
    _ = concatenate_path (split_path q).dropLast ++ sep :: (split_path q).getLast hne :=
        concat_snoc _ _ hd
    _ = _ := by
        unfold lastSeg
        rw [List.getLastD_eq_getLast?, List.getLast?_eq_getLast _ hne]
        simp

theorem parent_path_append {q n : Path} (h : sep ∉ n) :
    parent_path (q ++ sep :: n) = q := by
  have hsplit : split_path (q ++ sep :: n) = split_path q ++ [n] := by
    rw [split_append, split_of_sepfree h]
  have hlen : (split_path (q ++ sep :: n)).length ≠ 1 := by
    rw [hsplit]
    have hpos : 0 < (split_path q).length :=
      List.length_pos.2 (split_path_ne_nil q)
    simp only [List.length_append, List.length_singleton]
    omega
  unfold parent_path
  rw [if_neg hlen, hsplit, List.dropLast_concat, concat_split]

theorem lastSeg_append {q n : Path} (h : sep ∉ n) :
    lastSeg (q ++ sep :: n) = n := by
  unfold lastSeg
  rw [split_append, split_of_sepfree h]
  simp [List.getLastD_concat]

/-- A path with parent path `fp` under which it also strictly lies is
`fp`, the separator, then its (separator-free) last segment. -/
theorem decomp_of_parent_path {q fp : Path} (hpp : parent_path q = fp)
    (hpfx : fp ++ [sep] <+: q) : q = fp ++ sep :: lastSeg q := by
  have h2 : 2 ≤ (split_path q).length := two_le_split_length (sep_mem_of_pfx hpfx)
  have := parent_decomp h2
  rw [hpp] at this
  exact this

/-- The parent path of a member of the subtree strictly below `fp`
either is `fp` itself or lies strictly below `fp` as well. -/
theorem parent_path_cases {fp q : Path} (h : fp ++ [sep] <+: q) :
    parent_path q = fp ∨ fp ++ [sep] <+: parent_path q := by
  rcases h with ⟨w, hw⟩
  subst hw
  rcases hsw : split_path w with - | ⟨s, ss⟩
  · exact absurd hsw (split_path_ne_nil w)
  cases ss with
  | nil =>
    left
    have hwsep : sep ∉ w := split_length_one_iff.1 (by rw [hsw]; rfl)
    have : fp ++ [sep] ++ w = fp ++ sep :: w := by simp
    rw [this, parent_path_append hwsep]
  | cons z zs =>
    right
    have h2w : 2 ≤ (split_path w).length := by rw [hsw]; simp
    have hw' : w = parent_path w ++ sep :: lastSeg w := parent_decomp h2w
    have : fp ++ [sep] ++ w = (fp ++ sep :: parent_path w) ++ sep :: lastSeg w := by
      conv_lhs => rw [hw']
      simp
    rw [this, parent_path_append (sep_not_mem_lastSeg w)]
    exact ⟨parent_path w, by simp⟩

theorem parent_path_length_lt {q : Path} (h : 2 ≤ (split_path q).length) :
    (parent_path q).length < q.length := by
  have := parent_decomp h
  conv_rhs => rw [this]
  simp

theorem drop_append_sep (fp w : Path) :
    (fp ++ sep :: w).drop (fp.length + 1) = w := by
  have : fp ++ sep :: w = (fp ++ [sep]) ++ w := by simp
  rw [this]
  have hl : (fp ++ [sep]).length = fp.length + 1 := by simp
  rw [← hl, List.drop_left]

/-! ### SQL LIKE matching -/

/-- A path free of the SQL LIKE wildcard characters. -/
def noWild (p : Path) : Prop := '%' ∉ p ∧ '_' ∉ p

instance (p : Path) : Decidable (noWild p) := by unfold noWild; infer_instance

theorem toNat_ofNat_valid {n : Nat} (h : n.isValidChar) : (Char.ofNat n).toNat = n := by
  unfold Char.ofNat
  rw [dif_pos h]
  unfold Char.ofNatAux
  simp [Char.toNat, UInt32.toNat]

/-- Folding an ASCII uppercase letter adds 32 to its code point. -/
theorem toLower_toNat_upper {c : Char} (h : 65 ≤ c.toNat ∧ c.toNat ≤ 90) :
    c.toLower.toNat = c.toNat + 32 := by
  unfold Char.toLower
  rw [if_pos (by omega : c.toNat ≥ 65 ∧ c.toNat ≤ 90)]
  exact toNat_ofNat_valid (Or.inl (by omega))

/-- The separator is not a letter, so only the separator itself folds
to it. -/
theorem toLower_eq_sep_iff {c : Char} : c.toLower = sep ↔ c = sep := by
  by_cases h : 65 ≤ c.toNat ∧ c.toNat ≤ 90
  · constructor
    · intro he
      have h1 := toLower_toNat_upper h
      rw [he] at h1
      have h2 : sep.toNat = 47 := by decide
      rw [h2] at h1
      omega
    · intro he
      rw [he] at h
      exact absurd h (by decide)
  · unfold Char.toLower
    rw [if_neg (by omega)]

theorem toLower_sep : Char.toLower sep = sep := by decide

theorem foldPath_cons (c : Char) (q : Path) :
    foldPath (c :: q) = c.toLower :: foldPath q := rfl

theorem foldPath_append (a b : Path) : foldPath (a ++ b) = foldPath a ++ foldPath b :=
  List.map_append _ a b

theorem foldPath_sep_singleton : foldPath [sep] = [sep] := by
  simp [foldPath, toLower_sep]

theorem likeMatch_cons (c : Char) (ps s : Path) :
    likeMatch (c :: ps) s =
      if c = '%' then
        (List.range (s.length + 1)).any (fun k => likeMatch ps (s.drop k))
      else
        match s with
        | [] => false
        | d :: ss => (c = '_' || c.toLower = d.toLower) && likeMatch ps ss := by
  rw [likeMatch.eq_def]

theorem likeMatch_pct (ps s : Path) :
    likeMatch ('%' :: ps) s =
      (List.range (s.length + 1)).any (fun k => likeMatch ps (s.drop k)) := by
  rw [likeMatch_cons, if_pos rfl]

theorem likeMatch_other {c : Char} (hc : c ≠ '%') (ps : Path) (d : Char) (ss : Path) :
    likeMatch (c :: ps) (d :: ss) =
      ((c = '_' || c.toLower = d.toLower) && likeMatch ps ss) := by
  rw [likeMatch_cons, if_neg hc]

theorem likeMatch_other_nil {c : Char} (hc : c ≠ '%') (ps : Path) :
    likeMatch (c :: ps) [] = false := by
  rw [likeMatch_cons, if_neg hc]

theorem likeMatch_pct_nil (s : Path) : likeMatch ['%'] s = true := by
  rw [likeMatch_pct, List.any_eq_true]
  refine ⟨s.length, List.mem_range.2 (by omega), ?_⟩
  simp [likeMatch]

/-- A pattern ending in `%` matches any extension of its own literal
text (each wildcard character can match its own single occurrence). -/
theorem likeMatch_self_append (xs ys : Path) :
    likeMatch (xs ++ ['%']) (xs ++ ys) = true := by
  induction xs generalizing ys with
  | nil => exact likeMatch_pct_nil ys
  | cons c xs ih =>
    by_cases hc : c = '%'
    · subst hc
      rw [List.cons_append, List.cons_append, likeMatch_pct, List.any_eq_true]
      refine ⟨1, List.mem_range.2 (by simp), ?_⟩
      simpa using ih ys
    · rw [List.cons_append, List.cons_append, likeMatch_other hc]
      simp [ih ys]

/-- For a wildcard-free prefix, a pattern `xs ++ ['%']` matches exactly
the strings whose case folding has the folding of `xs` as a prefix. -/
theorem likeMatch_eq_prefix {xs : Path} (h : noWild xs) (s : Path) :
    likeMatch (xs ++ ['%']) s = true ↔ foldPath xs <+: foldPath s := by
  induction xs generalizing s with
  | nil =>
    simp only [List.nil_append, likeMatch_pct_nil, true_iff]
    exact List.nil_prefix
  | cons c xs ih =>
    have hc : c ≠ '%' := fun hc => h.1 (by simp [hc])
    have hu : c ≠ '_' := fun hu => h.2 (by simp [hu])
    have hxs : noWild xs :=
      ⟨fun hm => h.1 (List.mem_cons_of_mem c hm), fun hm => h.2 (List.mem_cons_of_mem c hm)⟩
    cases s with
    | nil =>
      rw [List.cons_append, likeMatch_other_nil hc]
      constructor
      · intro hfalse
        exact absurd hfalse (by simp)
      · intro hpfx
        exact absurd (List.eq_nil_of_prefix_nil hpfx) (by simp [foldPath])
    | cons d ss =>
      rw [List.cons_append, likeMatch_other hc, foldPath_cons, foldPath_cons,
        List.cons_prefix_cons, Bool.and_eq_true, Bool.or_eq_true,
        decide_eq_true_eq, decide_eq_true_eq, ih hxs]
      constructor
      · rintro ⟨hd | hd, hs⟩
        · exact absurd hd hu
        · exact ⟨hd, hs⟩
      · rintro ⟨hd, hs⟩
        exact ⟨Or.inr hd, hs⟩

/-- The descendants `LIKE` pattern of a wildcard-free full path
matches exactly the paths whose case folding extends the folded path
by the separator (the default `LIKE` folds ASCII case). -/
theorem likeMatch_desc_iff {fp : Path} (h : noWild fp) (q : Path) :
    likeMatch (fp ++ [sep, '%']) q = true ↔
      foldPath fp ++ [sep] <+: foldPath q := by
  have hn : noWild (fp ++ [sep]) := by
    constructor
    · intro hm
      rcases List.mem_append.1 hm with hm | hm
      · exact h.1 hm
      · rw [List.mem_singleton] at hm
        exact absurd hm (by decide)
    · intro hm
      rcases List.mem_append.1 hm with hm | hm
      · exact h.2 hm
      · rw [List.mem_singleton] at hm
        exact absurd hm (by decide)
  have he : fp ++ [sep, '%'] = (fp ++ [sep]) ++ ['%'] := by simp
  rw [he, likeMatch_eq_prefix hn, foldPath_append, foldPath_sep_singleton]

/-! ### Prefix geometry of paths -/

theorem not_self_subtree (fp : Path) : ¬(fp ++ [sep] <+: fp) := by
  intro h
  have := h.length_le
  simp at this

/-- Prefix non-nesting propagates from a rename `fp ↦ p` to the child
rename `fp/n ↦ p/n`: the child target is not strictly below the child
source. -/
theorem nest_sub (fp p n : Path) (h1 : ¬(fp ++ [sep] <+: p)) :
    ¬((fp ++ sep :: n) ++ [sep] <+: p ++ sep :: n) := by
  intro h
  have hlen := h.length_le
  simp only [List.length_append, List.length_cons, List.length_singleton] at hlen
  have hstep1 : fp ++ [sep] <+: fp ++ sep :: n := ⟨n, by simp⟩
  have hstep2 : fp ++ sep :: n <+: (fp ++ sep :: n) ++ [sep] := List.prefix_append _ _
  have hfp : fp ++ [sep] <+: p ++ sep :: n := (hstep1.trans hstep2).trans h
  exact h1 (List.prefix_of_prefix_length_le hfp (List.prefix_append p (sep :: n))
    (by simp; omega))

/-- Prefix non-nesting in the other direction also propagates to the
child rename. -/
theorem nest_sup (fp p n : Path) (h2 : ¬(p ++ [sep] <+: fp)) :
    ¬((p ++ sep :: n) ++ [sep] <+: fp ++ sep :: n) := by
  intro h
  have hlen := h.length_le
  simp only [List.length_append, List.length_cons, List.length_singleton] at hlen
  have hstep1 : p ++ [sep] <+: p ++ sep :: n := ⟨n, by simp⟩
  have hstep2 : p ++ sep :: n <+: (p ++ sep :: n) ++ [sep] := List.prefix_append _ _
  have hp : p ++ [sep] <+: fp ++ sep :: n := (hstep1.trans hstep2).trans h
  exact h2 (List.prefix_of_prefix_length_le hp (List.prefix_append fp (sep :: n))
    (by simp; omega))

theorem neq_child {fp p : Path} (h : p ≠ fp) (n : Path) :
    p ++ sep :: n ≠ fp ++ sep :: n := by
  intro heq
  have hlen : p.length = fp.length := by
    have := congrArg List.length heq
    simp at this
    omega
  exact h (List.append_inj heq hlen).1

/-- A path moved out of the subtree under `fp` (to `p` or strictly
below `p`) does not lie in the subtree under `fp`. -/
theorem movedOut {fp p : Path} (h1 : ¬(fp ++ [sep] <+: p))
    (h2 : ¬(p ++ [sep] <+: fp)) (h3 : p ≠ fp) (x : Path) :
    ¬(fp ++ [sep] <+: p ++ sep :: x) := by
  intro h
  by_cases hlen : fp.length + 1 ≤ p.length
  · exact h1 (List.prefix_of_prefix_length_le h (List.prefix_append p (sep :: x))
      (by simp; omega))
  · have hps : p ++ [sep] <+: p ++ sep :: x := ⟨x, by simp⟩
    have hle : (p ++ [sep]).length ≤ (fp ++ [sep]).length := by simp; omega
    have hpf : p ++ [sep] <+: fp ++ [sep] := List.prefix_of_prefix_length_le hps h hle
    by_cases he : p.length = fp.length
    · have : p ++ [sep] = fp ++ [sep] :=
        List.IsPrefix.eq_of_length hpf (by simp [he])
      exact h3 (List.append_inj this he).1
    · refine h2 (List.prefix_of_prefix_length_le hpf (List.prefix_append fp [sep]) ?_)
      simp
      omega

/-- Sibling subtrees are disjoint: a sibling path with a
separator-free name is not strictly below another sibling path. -/
theorem sibling_not_below {fp n₁ n₂ : Path} (h2 : sep ∉ n₂) :
    ¬((fp ++ sep :: n₁) ++ [sep] <+: fp ++ sep :: n₂) := by
  intro h
  have ha : (fp ++ [sep]) ++ (n₁ ++ [sep]) <+: (fp ++ [sep]) ++ n₂ := by
    simpa [List.append_assoc] using h
  have := (List.prefix_append_right_inj (fp ++ [sep])).1 ha
  exact h2 (this.sublist.mem (by simp))

theorem sibling_ne {fp n₁ n₂ : Path} (hne : n₁ ≠ n₂) :
    fp ++ sep :: n₁ ≠ fp ++ sep :: n₂ := by
  intro h
  have := List.append_cancel_left h
  simp at this
  exact hne this

/-! ### Record store lemmas -/

theorem find_path_some {s : Store} {p : Path} {r : Rec}
    (h : find_by_full_path s p = some r) : r ∈ s ∧ r.full_path = p := by
  refine ⟨List.mem_of_find?_eq_some h, ?_⟩
  have := List.find?_some h
  simpa using this

theorem find_path_isSome {s : Store} {p : Path} (r : Rec) (hr : r ∈ s)
    (hp : r.full_path = p) : (find_by_full_path s p).isSome := by
  exact List.find?_isSome.2 ⟨r, hr, by simp [hp]⟩

theorem find_path_none {s : Store} {p : Path}
    (h : find_by_full_path s p = none) : ∀ r ∈ s, r.full_path ≠ p := by
  intro r hr
  have := List.find?_eq_none.1 h r hr
  simpa using this

theorem find_id_some {s : Store} {i : Nat} {r : Rec}
    (h : find_by_id s i = some r) : r ∈ s ∧ r.id = i := by
  refine ⟨List.mem_of_find?_eq_some h, ?_⟩
  have := List.find?_some h
  simpa using this

theorem find_id_none {s : Store} {i : Nat}
    (h : find_by_id s i = none) : ∀ r ∈ s, r.id ≠ i := by
  intro r hr
  have := List.find?_eq_none.1 h r hr
  simpa using this

theorem uniq_id {s : Store} (h : NodupIds s) {a b : Rec} (ha : a ∈ s) (hb : b ∈ s)
    (hab : a.id = b.id) : a = b :=
  List.inj_on_of_nodup_map h ha hb hab

theorem uniq_path {s : Store} (h : NodupPaths s) {a b : Rec} (ha : a ∈ s) (hb : b ∈ s)
    (hab : a.full_path = b.full_path) : a = b :=
  List.inj_on_of_nodup_map h ha hb hab

theorem find_id_self {s : Store} (h : NodupIds s) {r : Rec} (hr : r ∈ s) :
    find_by_id s r.id = some r := by
  rcases ho : find_by_id s r.id with - | r'
  · exact absurd rfl (find_id_none ho r hr)
  · rcases find_id_some ho with ⟨hm, hid⟩
    rw [uniq_id h hm hr hid]

theorem find_path_self {s : Store} (h : NodupPaths s) {r : Rec} (hr : r ∈ s) :
    find_by_full_path s r.full_path = some r := by
  rcases ho : find_by_full_path s r.full_path with - | r'
  · exact absurd rfl (find_path_none ho r hr)
  · rcases find_path_some ho with ⟨hm, hp⟩
    rw [uniq_path h hm hr hp]

theorem max_id_le_general (s : Store) (init : Nat) :
    init ≤ s.foldl (fun m r => max m r.id) init ∧
      ∀ r ∈ s, r.id ≤ s.foldl (fun m r => max m r.id) init := by
  induction s generalizing init with
  | nil => simp
  | cons a l ih =>
    rcases ih (max init a.id) with ⟨h1, h2⟩
    refine ⟨le_trans (le_max_left _ _) h1, ?_⟩
    intro r hr
    rcases List.mem_cons.1 hr with hr | hr
    · subst hr
      exact le_trans (le_max_right _ _) h1
    · exact h2 r hr

theorem le_max_id {s : Store} {r : Rec} (hr : r ∈ s) : r.id ≤ max_id s :=
  (max_id_le_general s 0).2 r hr

theorem updateFullPath_map_id (s : Store) (i : Nat) (p : Path) :
    (updateFullPath s i p).map (fun r => r.id) = s.map (fun r => r.id) := by
  unfold updateFullPath
  rw [List.map_map]
  refine List.map_congr_left ?_
  intro r _
  by_cases h : r.id = i <;> simp [h]

theorem updateAcctType_map_path (s : Store) (i : Nat) (t : AcctType) :
    (updateAcctType s i t).map (fun r => r.full_path) = s.map (fun r => r.full_path) := by
  unfold updateAcctType
  rw [List.map_map]
  refine List.map_congr_left ?_
  intro r _
  by_cases h : r.id = i <;> simp [h]

theorem updateAcctType_map_id (s : Store) (i : Nat) (t : AcctType) :
    (updateAcctType s i t).map (fun r => r.id) = s.map (fun r => r.id) := by
  unfold updateAcctType
  rw [List.map_map]
  refine List.map_congr_left ?_
  intro r _
  by_cases h : r.id = i <;> simp [h]

/-- The paths of the store after the single `UPDATE` of
`set_full_path`, as a pointwise map. -/
theorem updateFullPath_map_path (s : Store) (i : Nat) (p : Path) :
    (updateFullPath s i p).map (fun r => r.full_path) =
      s.map (fun r => if r.id = i then p else r.full_path) := by
  unfold updateFullPath
  rw [List.map_map]
  refine List.map_congr_left ?_
  intro r _
  by_cases h : r.id = i <;> simp [h]

/-- The single guarded `UPDATE` of `set_full_path` keeps paths
pairwise distinct: the new path is not present in the store, and only
the rows with the given id (exactly one, under distinct ids) change. -/
theorem updateFullPath_nodup {s : Store} {i : Nat} {p : Path}
    (hids : NodupIds s) (hpaths : NodupPaths s)
    (hfresh : ∀ r ∈ s, r.full_path ≠ p) :
    NodupPaths (updateFullPath s i p) := by
  unfold NodupPaths
  rw [updateFullPath_map_path]
  unfold NodupIds at hids
  unfold NodupPaths at hpaths
  rw [List.Nodup, List.pairwise_map] at hids hpaths ⊢
  have hcomb := hids.and hpaths
  refine List.Pairwise.imp_of_mem ?_ hcomb
  intro a b ha hb hab
  rcases hab with ⟨hid, hpath⟩
  by_cases ha' : a.id = i <;> by_cases hb' : b.id = i
  · exact absurd (ha'.trans hb'.symm) hid
  · simp only [if_pos ha', if_neg hb']
    exact fun h => hfresh b hb h.symm
  · simp only [if_neg ha', if_pos hb']
    exact hfresh a ha
  · simpa only [if_neg ha', if_neg hb'] using hpath

theorem updateFullPath_nodup_ids {s : Store} {i : Nat} {p : Path}
    (hids : NodupIds s) : NodupIds (updateFullPath s i p) := by
  unfold NodupIds
  rw [updateFullPath_map_id]
  exact hids

/-! ### The descendants query and the children filter -/

/-- Any literal (non-wildcard) character of a matching `LIKE` pattern
occurs, up to ASCII case folding, in the matched string. -/
theorem likeMatch_lit_mem {ps q : Path} (h : likeMatch ps q = true) :
    ∀ c ∈ ps, c ≠ '%' → c ≠ '_' → ∃ d ∈ q, c.toLower = d.toLower := by
  induction ps generalizing q with
  | nil => intro c hc; exact absurd hc (by simp)
  | cons c' ps ih =>
    intro c hc hpc huc
    by_cases hc' : c' = '%'
    · subst hc'
      rw [likeMatch_pct, List.any_eq_true] at h
      rcases h with ⟨k, -, hk⟩
      rcases List.mem_cons.1 hc with hc | hc
      · exact absurd hc hpc
      · rcases ih hk c hc hpc huc with ⟨d, hd, hde⟩
        exact ⟨d, (List.drop_subset k q) hd, hde⟩
    · cases q with
      | nil => rw [likeMatch_other_nil hc'] at h; exact absurd h (by simp)
      | cons d ss =>
        rw [likeMatch_other hc', Bool.and_eq_true, Bool.or_eq_true] at h
        rcases List.mem_cons.1 hc with hc | hc
        · subst hc
          rcases h.1 with h1 | h1
          · exact absurd (by simpa using h1) huc
          · exact ⟨d, List.mem_cons_self d ss, by simpa using h1⟩
        · rcases ih h.2 c hc hpc huc with ⟨d', hd', hde⟩
          exact ⟨d', List.mem_cons_of_mem d hd', hde⟩

/-- Under distinct paths, the descendants query returns the ids of the
rows matched by the `LIKE` pattern (the re-lookup by full path finds
the row itself). -/
theorem descendants_eq {s : Store} (hpaths : NodupPaths s) (fp : Path) :
    descendants_of s fp =
      (s.filter (fun r => likeMatch (fp ++ [sep, '%']) r.full_path)).map
        (fun r => r.id) := by
  unfold descendants_of
  refine List.map_congr_left ?_
  intro r hr
  have hrs : r ∈ s := List.mem_of_mem_filter hr
  rw [find_path_self hpaths hrs]

theorem descendants_nodup {s : Store} (hids : NodupIds s) (hpaths : NodupPaths s)
    (fp : Path) : (descendants_of s fp).Nodup := by
  rw [descendants_eq hpaths]
  exact List.Nodup.sublist (List.Sublist.map _ (List.filter_sublist s)) hids

theorem children_nodup {s : Store} (hids : NodupIds s) (hpaths : NodupPaths s)
    (fp : Path) : (children_ids s fp).Nodup :=
  List.Nodup.filter _ (descendants_nodup hids hpaths fp)

/-- Membership in the descendants query, for a wildcard-free path:
exactly the ids of rows whose case-folded path extends the folded `fp`
by the separator (uppercase variants are matched too: the default
`LIKE` folds ASCII case). -/
theorem mem_descendants_iff {s : Store} (hpaths : NodupPaths s)
    {fp : Path} (hw : noWild fp) (c : Nat) :
    c ∈ descendants_of s fp ↔
      ∃ r ∈ s, r.id = c ∧ foldPath fp ++ [sep] <+: foldPath r.full_path := by
  rw [descendants_eq hpaths]
  constructor
  · intro h
    rcases List.mem_map.1 h with ⟨r, hr, hid⟩
    have hrs : r ∈ s := List.mem_of_mem_filter hr
    have hl := List.of_mem_filter hr
    exact ⟨r, hrs, hid, (likeMatch_desc_iff hw r.full_path).1 hl⟩
  · rintro ⟨r, hrs, hid, hpfx⟩
    refine List.mem_map.2 ⟨r, List.mem_filter.2 ⟨hrs, ?_⟩, hid⟩
    exact (likeMatch_desc_iff hw r.full_path).2 hpfx

/-- Membership in the children list: exactly the ids of rows whose
parent path is `fp` (such rows always strictly extend `fp` by the
separator, and always match the `LIKE` pattern, wildcards or not). -/
theorem mem_children_iff {s : Store} (hids : NodupIds s) (hpaths : NodupPaths s)
    (fp : Path) (c : Nat) :
    c ∈ children_ids s fp ↔
      ∃ r ∈ s, r.id = c ∧ parent_path r.full_path = fp ∧
        fp ++ [sep] <+: r.full_path := by
  unfold children_ids
  constructor
  · intro h
    have hdesc := List.mem_of_mem_filter h
    have hpred := List.of_mem_filter h
    rcases hf : find_by_id s c with - | rc
    · rw [hf] at hpred; exact absurd hpred (by simp)
    rw [hf] at hpred
    have hpp : parent_path rc.full_path = fp := by simpa using hpred
    rcases find_id_some hf with ⟨hrcs, hrcid⟩
    refine ⟨rc, hrcs, hrcid, hpp, ?_⟩
    -- the row is separator-extended below fp: its split has at least
    -- two segments, because a separator-free path cannot match the
    -- pattern, which contains the literal separator
    rw [descendants_eq hpaths] at hdesc
    rcases List.mem_map.1 hdesc with ⟨r₀, hr₀, hr₀id⟩
    have hr₀s : r₀ ∈ s := List.mem_of_mem_filter hr₀
    have hlike := List.of_mem_filter hr₀
    have hr₀rc : r₀ = rc := uniq_id hids hr₀s hrcs (by rw [hr₀id, hrcid])
    subst hr₀rc
    have hsep : sep ∈ r₀.full_path := by
      rcases likeMatch_lit_mem hlike sep (by simp) (by decide) (by decide) with
        ⟨d, hd, hde⟩
      have hds : d = sep := toLower_eq_sep_iff.1 (hde.symm.trans toLower_sep)
      exact hds ▸ hd
    have h2 : 2 ≤ (split_path r₀.full_path).length := two_le_split_length hsep
    have := parent_decomp h2
    rw [hpp] at this
    refine ⟨lastSeg r₀.full_path, ?_⟩
    rw [List.append_assoc]
    simpa using this.symm
  · rintro ⟨r, hrs, hid, hpp, hpfx⟩
    have hdecomp : r.full_path = fp ++ sep :: lastSeg r.full_path :=
      decomp_of_parent_path hpp hpfx
    refine List.mem_filter.2 ⟨?_, ?_⟩
    · rw [descendants_eq hpaths]
      refine List.mem_map.2 ⟨r, List.mem_filter.2 ⟨hrs, ?_⟩, hid⟩
      rw [hdecomp]
      have : fp ++ [sep, '%'] = (fp ++ [sep]) ++ ['%'] := by simp
      have h2 : fp ++ sep :: lastSeg r.full_path =
          (fp ++ [sep]) ++ lastSeg r.full_path := by simp
      rw [this, h2]
      exact likeMatch_self_append (fp ++ [sep]) (lastSeg r.full_path)
    · have hfind : find_by_id s c = some r := by
        rw [← hid]
        exact find_id_self hids hrs
      rw [hfind]
      simpa using hpp

/-- With no row strictly below `fp`, the children list is empty. -/
theorem children_nil {s : Store} (hids : NodupIds s) (hpaths : NodupPaths s)
    {fp : Path} (hnd : ∀ r ∈ s, ¬(fp ++ [sep] <+: r.full_path)) :
    children_ids s fp = [] := by
  rw [List.eq_nil_iff_forall_not_mem]
  intro c hc
  rcases (mem_children_iff hids hpaths fp c).1 hc with ⟨r, hrs, -, -, hpfx⟩
  exact hnd r hrs hpfx

/-! ### Anatomy of a `set_full_path` run -/

theorem sfp_go_zero (s : Store) (i : Nat) (p : Path) :
    sfp_go 0 s i p = .err .fuel s := rfl

/-- Complete case analysis of one `set_full_path` call: either a
business-rule error raised before any write (the store unchanged), or
the no-op return on the current path, or every check passed and the
call is the single `UPDATE` followed by the child-rewriting loop. -/
theorem sfp_go_succ_cases (fuel : Nat) (s : Store) (i : Nat) (p : Path) :
    (∃ e, sfp_go (fuel + 1) s i p = .err e s) ∨
    (∃ ri, find_by_id s i = some ri ∧ ri.full_path = p ∧
      sfp_go (fuel + 1) s i p = .ok s) ∨
    ∃ ri, find_by_id s i = some ri ∧ p ≠ [] ∧ ri.full_path ≠ p ∧
      find_by_full_path s p = none ∧
      ((split_path p).dropLast = [] ∨
        ∃ pr, find_by_full_path s (concatenate_path (split_path p).dropLast) = some pr ∧
          compatible_parent_child_types pr.acctType ri.acctType = true) ∧
      valid_name (lastSeg p) = true ∧
      sfp_go (fuel + 1) s i p =
        sfp_children fuel (updateFullPath s i p) (children_ids s ri.full_path) p := by
  by_cases hp : p = []
  · exact Or.inl ⟨.emptyPath, by simp only [sfp_go, if_pos hp]⟩
  rcases hri : find_by_id s i with - | ri
  · exact Or.inl ⟨.recordNotFound, by simp only [sfp_go, if_neg hp, hri]⟩
  by_cases hfp : ri.full_path = p
  · exact Or.inr (Or.inl ⟨ri, rfl, hfp,
      by simp only [sfp_go, if_neg hp, hri, if_pos hfp]⟩)
  rcases hdup : find_by_full_path s p with - | rdup
  swap
  · refine Or.inl ⟨.duplicatePath, ?_⟩
    simp only [sfp_go, if_neg hp, hri, if_neg hfp, hdup, Option.isSome_some, if_pos]
  by_cases hpre : (split_path p).dropLast = []
  · by_cases hnm : valid_name (lastSeg p) = false
    · refine Or.inl ⟨.invalidName, ?_⟩
      simp only [sfp_go, if_neg hp, hri, if_neg hfp, hdup, Option.isSome_none,
        Bool.false_eq_true, if_false, if_pos hpre, if_pos hnm]
    · refine Or.inr (Or.inr ⟨ri, rfl, hp, hfp, rfl, Or.inl hpre,
        eq_true_of_ne_false hnm, ?_⟩)
      simp only [sfp_go, if_neg hp, hri, if_neg hfp, hdup, Option.isSome_none,
        Bool.false_eq_true, if_false, if_pos hpre, if_neg hnm]
      rfl
  rcases hpar : find_by_full_path s (concatenate_path (split_path p).dropLast) with - | pr
  · refine Or.inl ⟨.parentNotFound, ?_⟩
    simp only [sfp_go, if_neg hp, hri, if_neg hfp, hdup, Option.isSome_none,
      Bool.false_eq_true, if_false, if_neg hpre, hpar]
  by_cases hcompat : compatible_parent_child_types pr.acctType ri.acctType = false
  · refine Or.inl ⟨.incompatibleTypes, ?_⟩
    simp only [sfp_go, if_neg hp, hri, if_neg hfp, hdup, Option.isSome_none,
      Bool.false_eq_true, if_false, if_neg hpre, hpar, if_pos hcompat]
  by_cases hnm : valid_name (lastSeg p) = false
  · refine Or.inl ⟨.invalidName, ?_⟩
    simp only [sfp_go, if_neg hp, hri, if_neg hfp, hdup, Option.isSome_none,
      Bool.false_eq_true, if_false, if_neg hpre, hpar, if_neg hcompat, if_pos hnm]
  · refine Or.inr (Or.inr ⟨ri, rfl, hp, hfp, rfl,
      Or.inr ⟨pr, rfl, eq_true_of_ne_false hcompat⟩,
      eq_true_of_ne_false hnm, ?_⟩)
    simp only [sfp_go, if_neg hp, hri, if_neg hfp, hdup, Option.isSome_none,
      Bool.false_eq_true, if_false, if_neg hpre, hpar, if_neg hcompat, if_neg hnm]
    rfl

theorem sfp_children_nil (fuel : Nat) (s : Store) (p : Path) :
    sfp_children fuel s [] p = .ok s := rfl

theorem sfp_children_cons (fuel : Nat) (s : Store) (c : Nat) (K : List Nat) (p : Path) :
    sfp_children fuel s (c :: K) p =
      K.foldl (sfp_step fuel p) (sfp_step fuel p (.ok s) c) := by
  unfold sfp_children
  rw [List.foldl_cons]

theorem sfp_fold_err (fuel : Nat) (p : Path) (K : List Nat) (e : Err) (t : Store) :
    K.foldl (sfp_step fuel p) (.err e t) = .err e t := by
  induction K with
  | nil => rfl
  | cons c K ih => rw [List.foldl_cons]; exact ih

theorem sfp_step_err (fuel : Nat) (p : Path) (e : Err) (t : Store) (c : Nat) :
    sfp_step fuel p (.err e t) c = .err e t := rfl

theorem sfp_step_ok (fuel : Nat) (p : Path) (t : Store) (c : Nat) :
    sfp_step fuel p (.ok t) c =
      match find_by_id t c with
      | none => .err .recordNotFound t
      | some rc => sfp_go fuel t c (p ++ sep :: lastSeg rc.full_path) := rfl

theorem sfp_step_ok_none {t : Store} {c : Nat} (fuel : Nat) (p : Path)
    (hfind : find_by_id t c = none) :
    sfp_step fuel p (.ok t) c = .err .recordNotFound t := by
  rw [sfp_step_ok, hfind]

theorem sfp_step_ok_some {t : Store} {c : Nat} {rc : Rec} (fuel : Nat) (p : Path)
    (hfind : find_by_id t c = some rc) :
    sfp_step fuel p (.ok t) c = sfp_go fuel t c (p ++ sep :: lastSeg rc.full_path) := by
  rw [sfp_step_ok, hfind]

/-- Generic invariant preservation along a left fold. -/
theorem foldl_invariant {α β : Type} (f : α → β → α) (Q : α → Prop)
    (l : List β) (a : α) (h0 : Q a) (hstep : ∀ a b, Q a → Q (f a b)) :
    Q (l.foldl f a) := by
  induction l generalizing a with
  | nil => exact h0
  | cons x l ih => exact ih (f a x) (hstep a x h0)

/-- The id, type and description columns of a row, which
`set_full_path` never touches. -/
def eraseP (r : Rec) : Nat × AcctType × Option Path := (r.id, r.acctType, r.description)

theorem updateFullPath_map_erase (s : Store) (i : Nat) (p : Path) :
    (updateFullPath s i p).map eraseP = s.map eraseP := by
  unfold updateFullPath
  rw [List.map_map]
  refine List.map_congr_left ?_
  intro r _
  by_cases h : r.id = i <;> simp [h, eraseP]

/-- A `set_full_path` run only rewrites the full-path column: the list
of ids, types and descriptions of the rows is untouched, whatever the
outcome. -/
theorem sfp_go_frame (fuel : Nat) : ∀ (s : Store) (i : Nat) (p : Path),
    ((sfp_go fuel s i p).store).map eraseP = s.map eraseP := by
  induction fuel with
  | zero => intro s i p; rfl
  | succ fuel ih =>
    intro s i p
    rcases sfp_go_succ_cases fuel s i p with ⟨e, heq⟩ | ⟨-, -, -, heq⟩ |
      ⟨ri, -, -, -, -, -, -, heq⟩
    · rw [heq]
      rfl
    · rw [heq]
      rfl
    · rw [heq]
      unfold sfp_children
      refine foldl_invariant (sfp_step fuel p)
        (fun o => (o.store).map eraseP = s.map eraseP)
        (children_ids s ri.full_path) (.ok (updateFullPath s i p))
        (by simpa [Outcome.store] using updateFullPath_map_erase s i p) ?_
      intro o c hQ
      cases o with
      | err e t => rw [sfp_step_err]; exact hQ
      | ok t =>
        rcases hfind : find_by_id t c with - | rc
        · rw [sfp_step_ok_none fuel p hfind]
          exact hQ
        · rw [sfp_step_ok_some fuel p hfind]
          rw [ih t c _]
          exact hQ

theorem sfp_go_map_id (fuel : Nat) (s : Store) (i : Nat) (p : Path) :
    ((sfp_go fuel s i p).store).map (fun r => r.id) = s.map (fun r => r.id) := by
  have := congrArg (List.map (fun x : Nat × AcctType × Option Path => x.1))
    (sfp_go_frame fuel s i p)
  simpa [List.map_map, eraseP, Function.comp] using this

theorem sfp_go_nodup_ids (fuel : Nat) {s : Store} (hids : NodupIds s)
    (i : Nat) (p : Path) : NodupIds (sfp_go fuel s i p).store := by
  unfold NodupIds at hids ⊢
  rw [sfp_go_map_id]
  exact hids

/-- A `set_full_path` run keeps the full paths pairwise distinct:
each single `UPDATE` of the cascade is guarded by its own duplicate
check, so the uniqueness of paths survives even a run that stops with
an error partway through the cascade. -/
theorem sfp_go_nodup_paths (fuel : Nat) : ∀ (s : Store) (i : Nat) (p : Path),
    NodupIds s → NodupPaths s → NodupPaths (sfp_go fuel s i p).store := by
  induction fuel with
  | zero => intro s i p _ hpaths; exact hpaths
  | succ fuel ih =>
    intro s i p hids hpaths
    rcases sfp_go_succ_cases fuel s i p with ⟨e, heq⟩ | ⟨-, -, -, heq⟩ |
      ⟨ri, -, -, -, hdup, -, -, heq⟩
    · rw [heq]; exact hpaths
    · rw [heq]; exact hpaths
    · rw [heq]
      unfold sfp_children
      have hupd : NodupPaths (updateFullPath s i p) :=
        updateFullPath_nodup hids hpaths (find_path_none hdup)
      have hupd_ids : NodupIds (updateFullPath s i p) := updateFullPath_nodup_ids hids
      refine foldl_invariant (sfp_step fuel p)
        (fun o => NodupIds o.store ∧ NodupPaths o.store)
        (children_ids s ri.full_path) (.ok (updateFullPath s i p))
        ⟨hupd_ids, hupd⟩ ?_ |>.2
      intro o c hQ
      cases o with
      | err e t => rw [sfp_step_err]; exact hQ
      | ok t =>
        rcases hfind : find_by_id t c with - | rc
        · rw [sfp_step_ok_none fuel p hfind]
          exact hQ
        · rw [sfp_step_ok_some fuel p hfind]
          exact ⟨sfp_go_nodup_ids fuel hQ.1 c _, ih t c _ hQ.1 hQ.2⟩

/-! ### The cascading rewrite -/

/-- The path rewrite performed by the cascade `fp ↦ p` on a path
strictly below `fp`: the old prefix is replaced by the new one. -/
def rwPath (fp p q : Path) : Path := p ++ [sep] ++ q.drop (fp.length + 1)

/-- The effect of the cascade `fp ↦ p` on one row strictly below
`fp`. -/
def subRw (fp p : Path) (r : Rec) : Rec :=
  if fp ++ [sep] <+: r.full_path then { r with full_path := rwPath fp p r.full_path }
  else r

/-- The effect of a complete `set_full_path` run (`fp ↦ p` on the row
with id `i`) on one row. -/
def topRw (i : Nat) (fp p : Path) (r : Rec) : Rec :=
  if r.id = i then { r with full_path := p } else subRw fp p r

theorem rwPath_append (fp p w : Path) : rwPath fp p (fp ++ sep :: w) = p ++ sep :: w := by
  unfold rwPath
  rw [drop_append_sep]
  simp

theorem subtree_ne {fp x : Path} (h : fp ++ [sep] <+: x) : x ≠ fp := by
  intro he
  have := h.length_le
  rw [he] at this
  simp at this

theorem prefix_trans_sep {fp q r : Path} (h1 : fp ++ [sep] <+: q)
    (h2 : q ++ [sep] <+: r) : fp ++ [sep] <+: r :=
  (h1.trans (List.prefix_append q [sep])).trans h2

theorem parent_sep_pfx {q : Path} (h : 2 ≤ (split_path q).length) :
    parent_path q ++ [sep] <+: q := by
  refine ⟨lastSeg q, ?_⟩
  rw [List.append_assoc]
  simpa using (parent_decomp h).symm

/-- Walking the parent chain inside a parent-closed subtree reaches a
direct child of the subtree root. -/
theorem chain_to_child {s : Store} {fp : Path} (hclosed : SubtreeClosed s fp) :
    ∀ r ∈ s, fp ++ [sep] <+: r.full_path →
      ∃ rc ∈ s, parent_path rc.full_path = fp ∧ fp ++ [sep] <+: rc.full_path ∧
        (rc = r ∨ rc.full_path ++ [sep] <+: r.full_path) := by
  suffices h : ∀ (n : Nat), ∀ r ∈ s, r.full_path.length ≤ n →
      fp ++ [sep] <+: r.full_path →
      ∃ rc ∈ s, parent_path rc.full_path = fp ∧ fp ++ [sep] <+: rc.full_path ∧
        (rc = r ∨ rc.full_path ++ [sep] <+: r.full_path) by
    intro r hr hpfx
    exact h r.full_path.length r hr le_rfl hpfx
  intro n
  induction n with
  | zero =>
    intro r _ hlen hpfx
    have := hpfx.length_le
    simp at hlen
    rw [hlen] at this
    simp at this
  | succ n ih =>
    intro r hr hlen hpfx
    have hsep : sep ∈ r.full_path := sep_mem_of_pfx hpfx
    have h2 : 2 ≤ (split_path r.full_path).length := two_le_split_length hsep
    rcases parent_path_cases hpfx with hcase | hcase
    · exact ⟨r, hr, hcase, hpfx, Or.inl rfl⟩
    · rcases hclosed r hr hpfx with ⟨u, hu, hueq⟩
      have hulen : u.full_path.length ≤ n := by
        have := parent_path_length_lt h2
        rw [← hueq] at this
        omega
      have hupfx : fp ++ [sep] <+: u.full_path := by rw [hueq]; exact hcase
      rcases ih u hu hulen hupfx with ⟨rc, hrc, hrc1, hrc2, hrc3⟩
      refine ⟨rc, hrc, hrc1, hrc2, Or.inr ?_⟩
      have hpar : u.full_path <+: r.full_path := by
        rw [hueq]
        exact (List.prefix_append (parent_path r.full_path) [sep]).trans
          (parent_sep_pfx h2)
      rcases hrc3 with hrc3 | hrc3
      · subst hrc3
        rw [hueq]
        exact parent_sep_pfx h2
      · exact hrc3.trans hpar

/-- A store without orphaned paths is parent-closed below any of its
rows. -/
theorem subtreeClosed_of_orphanFree {s : Store} (ho : OrphanFree s) {ri : Rec}
    (hri : ri ∈ s) : SubtreeClosed s ri.full_path := by
  intro r hr hpfx
  rcases parent_path_cases hpfx with h | h
  · exact ⟨ri, hri, h.symm⟩
  · refine ho r hr ?_
    intro hnil
    rw [hnil] at h
    have := h.length_le
    simp at this

theorem topRw_self {i : Nat} {fp p : Path} {r : Rec} (h : r.id = i) :
    topRw i fp p r = { r with full_path := p } := by
  unfold topRw
  rw [if_pos h]

theorem topRw_other {i : Nat} {fp p : Path} {r : Rec} (h : r.id ≠ i) :
    topRw i fp p r = subRw fp p r := by
  unfold topRw
  rw [if_neg h]

theorem subRw_pos {fp p : Path} {r : Rec} (h : fp ++ [sep] <+: r.full_path) :
    subRw fp p r = { r with full_path := rwPath fp p r.full_path } := by
  unfold subRw
  rw [if_pos h]

theorem subRw_neg {fp p : Path} {r : Rec} (h : ¬(fp ++ [sep] <+: r.full_path)) :
    subRw fp p r = r := by
  unfold subRw
  rw [if_neg h]

theorem append_sep_assoc (fp n w : Path) :
    (fp ++ sep :: n) ++ sep :: w = fp ++ sep :: (n ++ sep :: w) := by
  simp

/-- The child-rewriting loop of a cascade, one level at a time: when
the pending child list covers the whole remaining subtree below `fp`
(the original path of the already-moved account), each child sits at
`fp` extended by its name, the subtree is parent-closed except at its
roots, and each nested `set_full_path` call behaves as a cascade
rewrite, then a successful loop is exactly the rewrite of the subtree
below `fp`. -/
theorem cascade_children (fuel : Nat)
    (hgo : ∀ (s : Store) (i : Nat) (p : Path) (ri : Rec) (s' : Store),
      ri ∈ s → ri.id = i → NodupIds s → NodupPaths s →
      SubtreeClosed s ri.full_path →
      ¬(ri.full_path ++ [sep] <+: p) → ¬(p ++ [sep] <+: ri.full_path) →
      sfp_go fuel s i p = .ok s' → s' = s.map (topRw i ri.full_path p))
    (p fp : Path)
    (h1 : ¬(fp ++ [sep] <+: p)) (h2 : ¬(p ++ [sep] <+: fp)) (h3 : p ≠ fp) :
    ∀ (K : List Nat) (t t' : Store),
      NodupIds t → NodupPaths t → K.Nodup →
      (∀ c ∈ K, ∃ r ∈ t, r.id = c ∧ parent_path r.full_path = fp ∧
        fp ++ [sep] <+: r.full_path) →
      (∀ r ∈ t, fp ++ [sep] <+: r.full_path →
        ∃ c ∈ K, r.id = c ∨ ∃ rc ∈ t, rc.id = c ∧ rc.full_path ++ [sep] <+: r.full_path) →
      (∀ r ∈ t, fp ++ [sep] <+: r.full_path → parent_path r.full_path ≠ fp →
        ∃ u ∈ t, u.full_path = parent_path r.full_path ∧ fp ++ [sep] <+: u.full_path) →
      sfp_children fuel t K p = .ok t' →
      t' = t.map (subRw fp p) := by
  intro K
  induction K with
  | nil =>
    intro t t' _ _ _ _ hpart _ hok
    rw [sfp_children_nil] at hok
    injection hok with hok
    subst hok
    have hmap : t.map (subRw fp p) = t := by
      have h := List.map_congr_left (l := t) (f := subRw fp p) (g := id) ?_
      · rw [h, List.map_id]
      · intro r hr
        refine subRw_neg ?_
        intro hpfx
        rcases hpart r hr hpfx with ⟨c, hc, -⟩
        simp at hc
    exact hmap.symm
  | cons c K ih =>
    intro t t' hids hpaths hnodup hK hpart hclosed hok
    obtain ⟨rc, hrct, hrcid, hrcpp, hrcpfx⟩ := hK c (List.mem_cons_self c K)
    have hcnotK : c ∉ K := (List.nodup_cons.1 hnodup).1
    have hnodupK : K.Nodup := (List.nodup_cons.1 hnodup).2
    have hdecomp : rc.full_path = fp ++ sep :: lastSeg rc.full_path :=
      decomp_of_parent_path hrcpp hrcpfx
    have hnsep : sep ∉ lastSeg rc.full_path := sep_not_mem_lastSeg rc.full_path
    set n := lastSeg rc.full_path with hn
    have hfind : find_by_id t c = some rc := by
      rw [← hrcid]
      exact find_id_self hids hrct
    rw [sfp_children_cons, sfp_step_ok_some fuel p hfind] at hok
    cases hout : sfp_go fuel t c (p ++ sep :: lastSeg rc.full_path) with
    | err e t₁ =>
      rw [hout, sfp_fold_err] at hok
      simp at hok
    | ok t₁ =>
      rw [hout] at hok
      have hok' : sfp_children fuel t₁ K p = .ok t' := hok
      -- the nested call on the child is itself a cascade rewrite
      have hnest1 : ¬(rc.full_path ++ [sep] <+: p ++ sep :: n) := by
        rw [hdecomp]
        exact nest_sub fp p n h1
      have hnest2 : ¬((p ++ sep :: n) ++ [sep] <+: rc.full_path) := by
        rw [hdecomp]
        exact nest_sup fp p n h2
      have hsubcl : SubtreeClosed t rc.full_path := by
        intro r hr hpfx
        have hfpr : fp ++ [sep] <+: r.full_path := prefix_trans_sep hrcpfx hpfx
        rcases parent_path_cases hpfx with hc | hc
        · exact ⟨rc, hrct, hc.symm⟩
        · have hne : parent_path r.full_path ≠ fp := by
            intro he
            rw [he] at hc
            have l1 := hc.length_le
            have l2 := hrcpfx.length_le
            simp at l1 l2
            omega
          rcases hclosed r hr hfpr hne with ⟨u, hu, hueq, -⟩
          exact ⟨u, hu, hueq⟩
      have ht₁ : t₁ = t.map (topRw c rc.full_path (p ++ sep :: lastSeg rc.full_path)) :=
        hgo t c _ rc t₁ hrct hrcid hids hpaths hsubcl hnest1 hnest2 hout
      -- rows moved by the child call land outside the subtree below fp
      have hmoved : ∀ r ∈ t, (r.id = c ∨ rc.full_path ++ [sep] <+: r.full_path) →
          ¬(fp ++ [sep] <+:
            (topRw c rc.full_path (p ++ sep :: lastSeg rc.full_path) r).full_path) := by
        intro r hr hcase
        rcases hcase with hcase | hcase
        · rw [topRw_self hcase]
          exact movedOut h1 h2 h3 (lastSeg rc.full_path)
        · have hidne : r.id ≠ c := by
            intro hid
            have : r = rc := uniq_id hids hr hrct (by rw [hid, hrcid])
            subst this
            exact not_self_subtree r.full_path hcase
          rw [topRw_other hidne, subRw_pos hcase]
          rcases hcase with ⟨w, hw⟩
          have hw' : r.full_path = rc.full_path ++ sep :: w := by
            rw [← hw]
            simp
          rw [hw', rwPath_append, append_sep_assoc]
          exact movedOut h1 h2 h3 (lastSeg rc.full_path ++ sep :: w)
      -- rows of the tail child list are untouched by the child call
      have huntouched : ∀ r ∈ t, r.id ≠ c → ¬(rc.full_path ++ [sep] <+: r.full_path) →
          topRw c rc.full_path (p ++ sep :: lastSeg rc.full_path) r = r := by
        intro r hr hid hpfx
        rw [topRw_other hid, subRw_neg hpfx]
      have hsibling : ∀ r ∈ t, parent_path r.full_path = fp →
          fp ++ [sep] <+: r.full_path → r.id ≠ c →
          ¬(rc.full_path ++ [sep] <+: r.full_path) := by
        intro r hr hpp hpfx hid
        have hdec : r.full_path = fp ++ sep :: lastSeg r.full_path :=
          decomp_of_parent_path hpp hpfx
        rw [hdecomp, hdec]
        exact sibling_not_below (sep_not_mem_lastSeg r.full_path)
      -- invariants of the intermediate store
      have hids₁ : NodupIds t₁ := by
        have h := sfp_go_nodup_ids fuel hids c (p ++ sep :: lastSeg rc.full_path)
        rw [hout] at h
        exact h
      have hpaths₁ : NodupPaths t₁ := by
        have h := sfp_go_nodup_paths fuel t c (p ++ sep :: lastSeg rc.full_path)
          hids hpaths
        rw [hout] at h
        exact h
      -- hypotheses of the tail loop
      have hK₁ : ∀ c' ∈ K, ∃ r ∈ t₁, r.id = c' ∧ parent_path r.full_path = fp ∧
          fp ++ [sep] <+: r.full_path := by
        intro c' hc'
        obtain ⟨r', hr't, hr'id, hr'pp, hr'pfx⟩ := hK c' (List.mem_cons_of_mem c hc')
        have hidne : r'.id ≠ c := by
          rw [hr'id]
          intro he
          exact hcnotK (he ▸ hc')
        have heq := huntouched r' hr't hidne (hsibling r' hr't hr'pp hr'pfx hidne)
        refine ⟨r', ?_, hr'id, hr'pp, hr'pfx⟩
        rw [ht₁]
        exact List.mem_map.2 ⟨r', hr't, heq⟩
      have hpart₁ : ∀ r ∈ t₁, fp ++ [sep] <+: r.full_path →
          ∃ c' ∈ K, r.id = c' ∨
            ∃ rc' ∈ t₁, rc'.id = c' ∧ rc'.full_path ++ [sep] <+: r.full_path := by
        intro r₁ hr₁ hpfx₁
        rw [ht₁] at hr₁
        rcases List.mem_map.1 hr₁ with ⟨r₀, hr₀, hr₀eq⟩
        by_cases htouch : r₀.id = c ∨ rc.full_path ++ [sep] <+: r₀.full_path
        · exact absurd (hr₀eq ▸ hpfx₁) (hmoved r₀ hr₀ htouch)
        push_neg at htouch
        have hr₁r₀ : r₁ = r₀ := by
          rw [← hr₀eq, huntouched r₀ hr₀ htouch.1 htouch.2]
        subst hr₁r₀
        rcases hpart r₁ hr₀ hpfx₁ with ⟨c₀, hc₀, hdisj⟩
        rcases List.mem_cons.1 hc₀ with hc₀ | hc₀
        · subst hc₀
          exfalso
          rcases hdisj with hdisj | ⟨rc₀, hrc₀t, hrc₀id, hrc₀pfx⟩
          · exact htouch.1 hdisj
          · have : rc₀ = rc := uniq_id hids hrc₀t hrct (by rw [hrc₀id, hrcid])
            subst this
            exact htouch.2 hrc₀pfx
        · refine ⟨c₀, hc₀, ?_⟩
          rcases hdisj with hdisj | ⟨rc₀, hrc₀t, hrc₀id, hrc₀pfx⟩
          · exact Or.inl hdisj
          · -- the witness row is the record of the sibling c₀, untouched
            obtain ⟨r'', hr''t, hr''id, hr''pp, hr''pfx⟩ := hK c₀ (List.mem_cons_of_mem c hc₀)
            have : rc₀ = r'' := uniq_id hids hrc₀t hr''t (by rw [hrc₀id, hr''id])
            subst this
            have hidne : rc₀.id ≠ c := by
              rw [hrc₀id]
              intro he
              exact hcnotK (he ▸ hc₀)
            have heq := huntouched rc₀ hrc₀t hidne
              (hsibling rc₀ hrc₀t hr''pp hr''pfx hidne)
            refine Or.inr ⟨rc₀, ?_, hrc₀id, hrc₀pfx⟩
            rw [ht₁]
            exact List.mem_map.2 ⟨rc₀, hrc₀t, heq⟩
      have hclosed₁ : ∀ r ∈ t₁, fp ++ [sep] <+: r.full_path →
          parent_path r.full_path ≠ fp →
          ∃ u ∈ t₁, u.full_path = parent_path r.full_path ∧
            fp ++ [sep] <+: u.full_path := by
        intro r₁ hr₁ hpfx₁ hppne
        rw [ht₁] at hr₁
        rcases List.mem_map.1 hr₁ with ⟨r₀, hr₀, hr₀eq⟩
        by_cases htouch : r₀.id = c ∨ rc.full_path ++ [sep] <+: r₀.full_path
        · exact absurd (hr₀eq ▸ hpfx₁) (hmoved r₀ hr₀ htouch)
        push_neg at htouch
        have hr₁r₀ : r₁ = r₀ := by
          rw [← hr₀eq, huntouched r₀ hr₀ htouch.1 htouch.2]
        subst hr₁r₀
        rcases hclosed r₁ hr₀ hpfx₁ hppne with ⟨u, hu, hueq, hupfx⟩
        have h2u : 2 ≤ (split_path r₁.full_path).length :=
          two_le_split_length (sep_mem_of_pfx hpfx₁)
        have hupref : u.full_path <+: r₁.full_path := by
          rw [hueq]
          exact (List.prefix_append (parent_path r₁.full_path) [sep]).trans
            (parent_sep_pfx h2u)
        have huid : u.id ≠ c := by
          intro he
          have : u = rc := uniq_id hids hu hrct (by rw [he, hrcid])
          subst this
          -- then rc.full_path = parent_path r₁.full_path, so r₁ lies strictly
          -- below rc and would have been moved
          have : u.full_path ++ [sep] <+: r₁.full_path := by
            rw [hueq]
            exact parent_sep_pfx h2u
          exact htouch.2 this
        have hunot : ¬(rc.full_path ++ [sep] <+: u.full_path) := by
          intro hpfx
          exact htouch.2 (hpfx.trans hupref)

        have heq := huntouched u hu huid hunot
        refine ⟨u, ?_, hueq, hupfx⟩
        rw [ht₁]
        exact List.mem_map.2 ⟨u, hu, heq⟩
      have hfinal := ih t₁ t' hids₁ hpaths₁ hnodupK hK₁ hpart₁ hclosed₁ hok'
      -- compose the child rewrite with the tail rewrite
      rw [hfinal, ht₁, List.map_map]
      refine List.map_congr_left ?_
      intro r hr
      show subRw fp p (topRw c rc.full_path (p ++ sep :: n) r) = subRw fp p r
      by_cases hid : r.id = c
      · have hrrc : r = rc := uniq_id hids hr hrct (by rw [hid, hrcid])
        have hrpfx : fp ++ [sep] <+: r.full_path := by rw [hrrc]; exact hrcpfx
        rw [topRw_self hid, subRw_neg (movedOut h1 h2 h3 n), subRw_pos hrpfx]
        have hpath : rwPath fp p r.full_path = p ++ sep :: n := by
          rw [hrrc]
          conv_lhs => rw [hdecomp]
          rw [rwPath_append]
        rw [hpath]
      · rw [topRw_other hid]
        by_cases hpfx : rc.full_path ++ [sep] <+: r.full_path
        · have hpfx2 := hpfx
          obtain ⟨w, hw⟩ := hpfx2
          have hw' : r.full_path = rc.full_path ++ sep :: w := by
            rw [← hw]
            simp
          have hrfp : r.full_path = fp ++ sep :: (n ++ sep :: w) := by
            conv_lhs => rw [hw']
            conv_lhs => rw [hdecomp]
            exact append_sep_assoc fp n w
          rw [subRw_pos hpfx]
          have hin : rwPath rc.full_path (p ++ sep :: n) r.full_path =
              p ++ sep :: (n ++ sep :: w) := by
            conv_lhs => rw [hw']
            rw [rwPath_append, append_sep_assoc]
          rw [hin, subRw_neg (movedOut h1 h2 h3 (n ++ sep :: w)),
            subRw_pos (show fp ++ [sep] <+: r.full_path by
              rw [hrfp]
              exact ⟨n ++ sep :: w, by simp⟩)]
          have hout2 : rwPath fp p r.full_path = p ++ sep :: (n ++ sep :: w) := by
            conv_lhs => rw [hrfp]
            rw [rwPath_append]
          rw [hout2]
        · rw [subRw_neg hpfx]

theorem set_path_eta (r : Rec) : ({ r with full_path := r.full_path } : Rec) = r := rfl

/-- The cascading rewrite theorem: a successful `set_full_path` run on
a store with distinct ids, distinct paths and a parent-closed subtree,
whose target path does not nest with the source path in either
direction, moves the row to the new path and rewrites every row of the
subtree below the old path by prefix substitution, leaving every other
row unchanged. -/
theorem cascade_go : ∀ (fuel : Nat) (s : Store) (i : Nat) (p : Path) (ri : Rec)
    (s' : Store),
    ri ∈ s → ri.id = i → NodupIds s → NodupPaths s →
    SubtreeClosed s ri.full_path →
    ¬(ri.full_path ++ [sep] <+: p) → ¬(p ++ [sep] <+: ri.full_path) →
    sfp_go fuel s i p = .ok s' → s' = s.map (topRw i ri.full_path p) := by
  intro fuel
  induction fuel with
  | zero =>
    intro s i p ri s' _ _ _ _ _ _ _ hok
    rw [sfp_go_zero] at hok
    simp at hok
  | succ fuel ih =>
    intro s i p ri s' hri hid hids hpaths hclosed h1 h2 hok
    have hfind : find_by_id s i = some ri := by
      rw [← hid]
      exact find_id_self hids hri
    rcases sfp_go_succ_cases fuel s i p with ⟨e, heq⟩ | ⟨ri₀, hf₀, hfp₀, heq⟩ |
      ⟨ri₀, hf₀, hpne, hfpne, hdup, hpar, hnm, heq⟩
    · rw [heq] at hok
      simp at hok
    · -- no-op branch: the new path is already the row's path, and the
      -- rewrite is the identity
      have hri₀ : ri₀ = ri := by
        have h := hf₀.symm.trans hfind
        injection h
      subst hri₀
      rw [heq] at hok
      injection hok with hok
      subst hok
      have hall : ∀ r ∈ s, topRw i ri₀.full_path p r = r := by
        intro r hr
        by_cases hidr : r.id = i
        · have hrri : r = ri₀ := uniq_id hids hr hri (by rw [hidr, hid])
          rw [topRw_self hidr, ← hfp₀, ← hrri]
        · rw [topRw_other hidr]
          by_cases hpfx : ri₀.full_path ++ [sep] <+: r.full_path
          · rw [subRw_pos hpfx]
            obtain ⟨w, hw⟩ := hpfx
            have hrw : r.full_path = ri₀.full_path ++ sep :: w := by
              rw [← hw]
              simp
            have : rwPath ri₀.full_path p r.full_path = r.full_path := by
              conv_lhs => rw [hrw]
              rw [rwPath_append, ← hfp₀, ← hrw]
            rw [this]
          · rw [subRw_neg hpfx]
      have : s.map (topRw i ri₀.full_path p) = s := by
        have h := List.map_congr_left (l := s) (f := topRw i ri₀.full_path p) (g := id) ?_
        · rw [h, List.map_id]
        · intro r hr
          exact hall r hr
      exact this.symm
    · -- main branch: the single update of the moved row, followed by
      -- the child-rewriting loop of the subtree
      have hri₀ : ri₀ = ri := by
        have h := hf₀.symm.trans hfind
        injection h
      subst hri₀
      rw [heq] at hok
      have h3 : p ≠ ri₀.full_path := Ne.symm hfpne
      have hfresh : ∀ r ∈ s, r.full_path ≠ p := find_path_none hdup
      have hidst : NodupIds (updateFullPath s i p) := updateFullPath_nodup_ids hids
      have hpathst : NodupPaths (updateFullPath s i p) :=
        updateFullPath_nodup hids hpaths hfresh
      have hnotouch : ∀ r ∈ s, r.id ≠ i → r ∈ updateFullPath s i p := by
        intro r hr hne
        exact List.mem_map.2 ⟨r, hr, by rw [if_neg hne]⟩
      have hsubne : ∀ r : Rec, ri₀.full_path ++ [sep] <+: r.full_path → r ∈ s →
          r.id ≠ i := by
        intro r hpfx hr hidr
        have : r = ri₀ := uniq_id hids hr hri (by rw [hidr, hid])
        subst this
        exact not_self_subtree r.full_path hpfx
      have hKt : ∀ c ∈ children_ids s ri₀.full_path,
          ∃ r ∈ updateFullPath s i p, r.id = c ∧
            parent_path r.full_path = ri₀.full_path ∧
            ri₀.full_path ++ [sep] <+: r.full_path := by
        intro c hc
        rcases (mem_children_iff hids hpaths ri₀.full_path c).1 hc with
          ⟨r, hr, hrid, hrpp, hrpfx⟩
        exact ⟨r, hnotouch r hr (by rw [hrid]; intro he; exact hsubne r hrpfx hr (hrid ▸ he)),
          hrid, hrpp, hrpfx⟩
      have hmemrev : ∀ r₁ ∈ updateFullPath s i p,
          ri₀.full_path ++ [sep] <+: r₁.full_path → r₁ ∈ s ∧ r₁.id ≠ i := by
        intro r₁ hr₁ hpfx₁
        rcases List.mem_map.1 hr₁ with ⟨r₀, hr₀, hr₀eq⟩
        by_cases hidr : r₀.id = i
        · rw [if_pos hidr] at hr₀eq
          rw [← hr₀eq] at hpfx₁
          exact absurd hpfx₁ h1
        · rw [if_neg hidr] at hr₀eq
          subst hr₀eq
          exact ⟨hr₀, hidr⟩
      have hpartt : ∀ r₁ ∈ updateFullPath s i p,
          ri₀.full_path ++ [sep] <+: r₁.full_path →
          ∃ c ∈ children_ids s ri₀.full_path, r₁.id = c ∨
            ∃ rc ∈ updateFullPath s i p, rc.id = c ∧
              rc.full_path ++ [sep] <+: r₁.full_path := by
        intro r₁ hr₁ hpfx₁
        rcases hmemrev r₁ hr₁ hpfx₁ with ⟨hr₁s, -⟩
        rcases chain_to_child hclosed r₁ hr₁s hpfx₁ with ⟨rc, hrc, hrcpp, hrcpfx, hdisj⟩
        have hrcK : rc.id ∈ children_ids s ri₀.full_path :=
          (mem_children_iff hids hpaths ri₀.full_path rc.id).2 ⟨rc, hrc, rfl, hrcpp, hrcpfx⟩
        refine ⟨rc.id, hrcK, ?_⟩
        rcases hdisj with hdisj | hdisj
        · exact Or.inl (by rw [hdisj])
        · exact Or.inr ⟨rc, hnotouch rc hrc (hsubne rc hrcpfx hrc), rfl, hdisj⟩
      have hclosedt : ∀ r₁ ∈ updateFullPath s i p,
          ri₀.full_path ++ [sep] <+: r₁.full_path →
          parent_path r₁.full_path ≠ ri₀.full_path →
          ∃ u ∈ updateFullPath s i p, u.full_path = parent_path r₁.full_path ∧
            ri₀.full_path ++ [sep] <+: u.full_path := by
        intro r₁ hr₁ hpfx₁ hppne
        rcases hmemrev r₁ hr₁ hpfx₁ with ⟨hr₁s, -⟩
        rcases hclosed r₁ hr₁s hpfx₁ with ⟨u, hu, hueq⟩
        have hupfx : ri₀.full_path ++ [sep] <+: u.full_path := by
          rcases parent_path_cases hpfx₁ with hcase | hcase
          · exact absurd hcase hppne
          · rw [hueq]
            exact hcase
        exact ⟨u, hnotouch u hu (hsubne u hupfx hu), hueq, hupfx⟩
      have hfinal := cascade_children fuel ih p ri₀.full_path h1 h2 h3
        (children_ids s ri₀.full_path) (updateFullPath s i p) s'
        hidst hpathst (children_nodup hids hpaths ri₀.full_path)
        hKt hpartt hclosedt hok
      rw [hfinal]
      unfold updateFullPath
      rw [List.map_map]
      refine List.map_congr_left ?_
      intro r hr
      by_cases hidr : r.id = i
      · show subRw ri₀.full_path p (if r.id = i then { r with full_path := p } else r) =
          topRw i ri₀.full_path p r
        rw [if_pos hidr, topRw_self hidr]
        exact subRw_neg h1
      · show subRw ri₀.full_path p (if r.id = i then { r with full_path := p } else r) =
          topRw i ri₀.full_path p r
        rw [if_neg hidr, topRw_other hidr]

/-! ### Operation-level lemmas -/

/-- The no-op branch of `set_full_path`: a non-empty path equal to the
row's current path returns at once, before any validity, duplicate,
parent or compatibility check and before any write. -/
theorem sfp_go_succ_noop {s : Store} {i : Nat} {ri : Rec} (fuel : Nat)
    (hfind : find_by_id s i = some ri) (hne : ri.full_path ≠ []) :
    sfp_go (fuel + 1) s i ri.full_path = .ok s := by
  simp only [sfp_go, if_neg hne, hfind, if_pos rfl, if_true]

/-- Appending a row with a fresh projection keeps the projections of a
store pairwise distinct. -/
theorem nodup_map_concat {α : Type} {s : Store} {f : Rec → α}
    (h : (s.map f).Nodup) (r : Rec) (hfresh : ∀ r' ∈ s, f r' ≠ f r) :
    ((s ++ [r]).map f).Nodup := by
  rw [List.map_append, List.nodup_append]
  refine ⟨h, by simp, ?_⟩
  intro a ha hb
  simp at hb
  rcases List.mem_map.1 ha with ⟨r', hr', hfr⟩
  exact hfresh r' hr' (by rw [hfr, hb])

/-- A failing `set_full_path` on a row with no rows strictly below it
leaves the store untouched: all its checks precede its single write,
and with no children there is no cascade after the write. -/
theorem sfp_err_nodesc {s : Store} {i : Nat} {ri : Rec} (fuel : Nat) (q : Path)
    (hids : NodupIds s) (hpaths : NodupPaths s)
    (hfind : find_by_id s i = some ri)
    (hnd : ∀ r ∈ s, ¬(ri.full_path ++ [sep] <+: r.full_path))
    {e : Err} {t' : Store} (h : sfp_go fuel s i q = .err e t') : t' = s := by
  cases fuel with
  | zero =>
    rw [sfp_go_zero] at h
    injection h with h1 h2
    exact h2.symm
  | succ fuel =>
    rcases sfp_go_succ_cases fuel s i q with ⟨e₀, heq⟩ | ⟨-, -, -, heq⟩ |
      ⟨ri₀, hf₀, -, -, -, -, -, heq⟩
    · rw [heq] at h
      injection h with h1 h2
      exact h2.symm
    · rw [heq] at h
      simp at h
    · have hri₀ : ri₀ = ri := by
        have := hf₀.symm.trans hfind
        injection this
      subst hri₀
      rw [heq, children_nil hids hpaths hnd, sfp_children_nil] at h
      simp at h

/-- A `make_new` call that raises leaves the store untouched: every
check precedes the single `INSERT`. -/
theorem make_new_err {s : Store} {nm : Path} {t : AcctType} {par : Option Nat}
    {d : Option Path} {e : Err} {t' : Store}
    (h : make_new s nm t par d = .err e t') : t' = s := by
  unfold make_new at h
  repeat' split at h
  all_goals try (injection h with h1 h2; exact h2.symm)
  all_goals simp at h

/-- A successful `make_new` appends exactly one row, carrying the id
`max_id + 1` and a path on which its duplicate check found no existing
row. -/
theorem make_new_ok_fresh {s : Store} {nm : Path} {t : AcctType} {par : Option Nat}
    {d : Option Path} {s' : Store}
    (h : make_new s nm t par d = .ok s') :
    ∃ r : Rec, s' = s ++ [r] ∧ r.id = max_id s + 1 ∧
      find_by_full_path s r.full_path = none := by
  unfold make_new at h
  split at h
  · simp at h
  · split at h
    · split at h
      · simp at h
      · rename_i hdup
        injection h with h
        refine ⟨_, h.symm, rfl, ?_⟩
        simpa [Option.not_isSome_iff_eq_none] using hdup
    · split at h
      · simp at h
      · split at h
        · simp at h
        · split at h
          · simp at h
          · rename_i hdup
            injection h with h
            refine ⟨_, h.symm, rfl, ?_⟩
            simpa [Option.not_isSome_iff_eq_none] using hdup

/-- Both well-formedness components survive any `set_full_path` outcome. -/
theorem set_full_path_wf (s : Store) (i : Nat) (p : Path) (hids : NodupIds s)
    (hpaths : NodupPaths s) :
    NodupIds (set_full_path s i p).store ∧ NodupPaths (set_full_path s i p).store := by
  unfold set_full_path
  exact ⟨sfp_go_nodup_ids _ hids i _, sfp_go_nodup_paths _ s i _ hids hpaths⟩

/-- Both well-formedness components survive any `make_new` outcome. -/
theorem make_new_wf {s : Store} (nm : Path) (t : AcctType) (par : Option Nat)
    (d : Option Path) (hids : NodupIds s) (hpaths : NodupPaths s) :
    NodupIds (make_new s nm t par d).store ∧ NodupPaths (make_new s nm t par d).store := by
  rcases hout : make_new s nm t par d with s' | ⟨e, s'⟩
  · rcases make_new_ok_fresh hout with ⟨r, hs', hid, hfresh⟩
    subst hs'
    constructor
    · refine nodup_map_concat hids r ?_
      intro r' hr'
      have := le_max_id hr'
      rw [hid]
      omega
    · refine nodup_map_concat hpaths r ?_
      intro r' hr'
      exact find_path_none hfresh r' hr'
  · have := make_new_err hout
    subst this
    exact ⟨hids, hpaths⟩

/-- Both well-formedness components survive any `set_name` outcome. -/
theorem set_name_wf {s : Store} (i : Nat) (n : Path) (hids : NodupIds s)
    (hpaths : NodupPaths s) :
    NodupIds (set_name s i n).store ∧ NodupPaths (set_name s i n).store := by
  unfold set_name
  split
  · exact ⟨hids, hpaths⟩
  · split
    · exact ⟨hids, hpaths⟩
    · exact set_full_path_wf s i _ hids hpaths

/-- Both well-formedness components survive any `set_parent` outcome. -/
theorem set_parent_wf {s : Store} (i : Nat) (par : Option Nat) (hids : NodupIds s)
    (hpaths : NodupPaths s) :
    NodupIds (set_parent s i par).store ∧ NodupPaths (set_parent s i par).store := by
  unfold set_parent
  split
  · exact ⟨hids, hpaths⟩
  · split
    · exact set_full_path_wf s i _ hids hpaths
    · split
      · exact ⟨hids, hpaths⟩
      · exact set_full_path_wf s i _ hids hpaths

/-- Both well-formedness components survive any operation of the
create/rename/reparent vocabulary, successful or not. -/
theorem applyOp_wf (s : Store) (op : Op) (h : NodupIds s ∧ NodupPaths s) :
    NodupIds (applyOp s op) ∧ NodupPaths (applyOp s op) := by
  cases op with
  | create nm t par d => exact make_new_wf nm t par d h.1 h.2
  | rename i n => exact set_name_wf i n h.1 h.2
  | reparent i par => exact set_parent_wf i par h.1 h.2

/-! ### The claims -/

/-- C9: splitting a path on the separator and joining the segments
again yields the original path, for every path (boost::split followed
by boost::join). -/
theorem c9_split_join_round_trip (p : Path) : concatenate_path (split_path p) = p :=
  concat_split p

/-- C4 counterexample: the name-validity check accepts the empty
string (`std::string::find` on an empty string returns `npos`, and
that is the only check `valid_name` performs), while the claim says it
must fail for the empty string. -/
theorem c4_empty_name_counterexample : valid_name (toL "") = true := by decide

/-- C4 (amended): `valid_name` fails exactly on the strings that
contain the separator character; emptiness is not checked. -/
theorem c4_valid_name_amended (n : Path) : valid_name n = false ↔ sep ∈ n := by
  simp [valid_name]

/-- C2: after any sequence of create, rename and reparent operations
on a store with distinct ids and distinct full paths, the full paths
are still pairwise distinct — every write of the vocabulary is guarded
by a duplicate check, including every write of a partially completed
cascade. -/
theorem c2_unique_full_paths (s : Store) (ops : List Op) (hids : NodupIds s)
    (hpaths : NodupPaths s) : NodupPaths (applyOps s ops) := by
  unfold applyOps
  exact (foldl_invariant applyOp (fun st => NodupIds st ∧ NodupPaths st) ops s
    ⟨hids, hpaths⟩ (fun st op h => applyOp_wf st op h)).2

/-- C2 witness: a concrete run from the empty store — a create, a
duplicate create that raises, and a rename — ends with pairwise
distinct full paths. -/
theorem c2_witness :
    NodupPaths (applyOps [] [Op.create (toL "a") .asset none none,
      Op.create (toL "a") .asset none none, Op.rename 1 (toL "b")]) :=
  c2_unique_full_paths [] [Op.create (toL "a") .asset none none,
      Op.create (toL "a") .asset none none, Op.rename 1 (toL "b")]
    (by decide) (by decide)

/-- C3: reparenting an account below its own descendant passes every
check of `set_full_path` and enters a cascade that grows the paths
forever (the model's fuel-indexed run never returns `ok`; the C++
recursion never terminates), leaving the two rows half-rewritten; the
creates that follow all succeed and produce a store holding an
asset-type parent with an income-type child, the pair the claim rules
out. -/
theorem c3_incompatible_pair :
    set_parent [⟨1, toL "a", .income, none⟩, ⟨2, toL "a/b", .income, none⟩] 1 (some 2) =
      .err .fuel [⟨1, toL "a/b/a/b/a", .income, none⟩, ⟨2, toL "a/b/a/b", .income, none⟩] ∧
    (sfp_go 20 [⟨1, toL "a", .income, none⟩, ⟨2, toL "a/b", .income, none⟩] 1
        (toL "a/b/a")).isOk = false ∧
    applyOps [] [Op.create (toL "a") .income none none,
        Op.create (toL "b") .income (some 1) none,
        Op.reparent 1 (some 2),
        Op.create (toL "a") .asset none none,
        Op.create (toL "b") .asset (some 3) none,
        Op.create (toL "a") .asset (some 4) none] =
      [⟨1, toL "a/b/a/b/a", .income, none⟩, ⟨2, toL "a/b/a/b", .income, none⟩,
       ⟨3, toL "a", .asset, none⟩, ⟨4, toL "a/b", .asset, none⟩,
       ⟨5, toL "a/b/a", .asset, none⟩] ∧
    (∃ u ∈ ([⟨1, toL "a/b/a/b/a", .income, none⟩, ⟨2, toL "a/b/a/b", .income, none⟩,
       ⟨3, toL "a", .asset, none⟩, ⟨4, toL "a/b", .asset, none⟩,
       ⟨5, toL "a/b/a", .asset, none⟩] : Store),
      ∃ r ∈ ([⟨1, toL "a/b/a/b/a", .income, none⟩, ⟨2, toL "a/b/a/b", .income, none⟩,
       ⟨3, toL "a", .asset, none⟩, ⟨4, toL "a/b", .asset, none⟩,
       ⟨5, toL "a/b/a", .asset, none⟩] : Store),
        parent_path r.full_path = u.full_path ∧
        compatible_parent_child_types u.acctType r.acctType = false) := by
  decide

/-- C1: renaming an account rewrites its own full path and every
descendant's full path, replacing the old prefix by the new one: in
any well-formed store holding `assets`, `assets/bank` and
`assets/cash`, renaming `assets` to `assets2` makes `assets2/bank` and
`assets2/cash` present and `assets/bank` absent. -/
theorem c1_cascading_rename {s s' : Store} {i : Nat} {a : Rec}
    (hids : NodupIds s) (hpaths : NodupPaths s) (ho : OrphanFree s)
    (ha : a ∈ s) (haid : a.id = i) (hafp : a.full_path = toL "assets")
    (hbank : ∃ rb ∈ s, rb.full_path = toL "assets/bank")
    (hcash : ∃ rc ∈ s, rc.full_path = toL "assets/cash")
    (hok : set_name s i (toL "assets2") = .ok s') :
    (find_by_full_path s' (toL "assets2/bank")).isSome = true ∧
    (find_by_full_path s' (toL "assets2/cash")).isSome = true ∧
    find_by_full_path s' (toL "assets/bank") = none := by
  have hfind : find_by_id s i = some a := by
    rw [← haid]
    exact find_id_self hids ha
  have hmap : s' = s.map (topRw i (toL "assets") (toL "assets2")) := by
    unfold set_name at hok
    split at hok
    · simp at hok
    · split at hok
      · simp at hok
      · rename_i ri₀ heq
        have hreq : ri₀ = a := by
          have := heq.symm.trans hfind
          injection this
        rw [hreq, hafp] at hok
        have harg : concatenate_path ((split_path (toL "assets")).dropLast
            ++ [toL "assets2"]) = toL "assets2" := by decide
        rw [harg] at hok
        unfold set_full_path at hok
        have hm := cascade_go (s.length + 1) s i (toL "assets2") a s' ha haid hids
          hpaths (subtreeClosed_of_orphanFree ho ha)
          (by rw [hafp]; decide) (by rw [hafp]; decide) hok
        rw [hafp] at hm
        exact hm
  refine ⟨?_, ?_, ?_⟩
  · rcases hbank with ⟨rb, hrb, hrbfp⟩
    have hrbid : rb.id ≠ i := by
      intro h
      have hba : rb = a := uniq_id hids hrb ha (h.trans haid.symm)
      rw [hba, hafp] at hrbfp
      exact absurd hrbfp (by decide)
    have hpfx : toL "assets" ++ [sep] <+: rb.full_path := by
      rw [hrbfp]; decide
    have hmem : topRw i (toL "assets") (toL "assets2") rb ∈ s' := by
      rw [hmap]
      exact List.mem_map_of_mem _ hrb
    refine find_path_isSome _ hmem ?_
    rw [topRw_other hrbid, subRw_pos hpfx]
    show rwPath (toL "assets") (toL "assets2") rb.full_path = toL "assets2/bank"
    rw [hrbfp]
    decide
  · rcases hcash with ⟨rc, hrc, hrcfp⟩
    have hrcid : rc.id ≠ i := by
      intro h
      have hca : rc = a := uniq_id hids hrc ha (h.trans haid.symm)
      rw [hca, hafp] at hrcfp
      exact absurd hrcfp (by decide)
    have hpfx : toL "assets" ++ [sep] <+: rc.full_path := by
      rw [hrcfp]; decide
    have hmem : topRw i (toL "assets") (toL "assets2") rc ∈ s' := by
      rw [hmap]
      exact List.mem_map_of_mem _ hrc
    refine find_path_isSome _ hmem ?_
    rw [topRw_other hrcid, subRw_pos hpfx]
    show rwPath (toL "assets") (toL "assets2") rc.full_path = toL "assets2/cash"
    rw [hrcfp]
    decide
  · rw [hmap]
    unfold find_by_full_path
    refine List.find?_eq_none.2 ?_
    intro x hx
    rcases List.mem_map.1 hx with ⟨r, hr, rfl⟩
    simp only [decide_eq_true_eq]
    by_cases hid2 : r.id = i
    · rw [topRw_self hid2]
      show ¬(toL "assets2" = toL "assets/bank")
      decide
    · rw [topRw_other hid2]
      by_cases hp : toL "assets" ++ [sep] <+: r.full_path
      · rw [subRw_pos hp]
        show ¬(rwPath (toL "assets") (toL "assets2") r.full_path = toL "assets/bank")
        intro he
        unfold rwPath at he
        have h8 := congrArg (List.take (toL "assets2" ++ [sep]).length) he
        rw [List.take_left] at h8
        exact absurd h8 (by decide)
      · rw [subRw_neg hp]
        intro he
        exact hp (by rw [he]; decide)

/-- C1 witness: the concrete three-account tree of the claim. -/
theorem c1_witness :
    (find_by_full_path [⟨1, toL "assets2", .asset, none⟩,
      ⟨2, toL "assets2/bank", .asset, none⟩, ⟨3, toL "assets2/cash", .asset, none⟩]
      (toL "assets2/bank")).isSome = true ∧
    (find_by_full_path [⟨1, toL "assets2", .asset, none⟩,
      ⟨2, toL "assets2/bank", .asset, none⟩, ⟨3, toL "assets2/cash", .asset, none⟩]
      (toL "assets2/cash")).isSome = true ∧
    find_by_full_path [⟨1, toL "assets2", .asset, none⟩,
      ⟨2, toL "assets2/bank", .asset, none⟩, ⟨3, toL "assets2/cash", .asset, none⟩]
      (toL "assets/bank") = none :=
  @c1_cascading_rename
    [⟨1, toL "assets", .asset, none⟩, ⟨2, toL "assets/bank", .asset, none⟩,
      ⟨3, toL "assets/cash", .asset, none⟩]
    [⟨1, toL "assets2", .asset, none⟩, ⟨2, toL "assets2/bank", .asset, none⟩,
      ⟨3, toL "assets2/cash", .asset, none⟩]
    1 ⟨1, toL "assets", .asset, none⟩
    (by decide) (by decide) (by decide) (by decide) (by decide) (by decide)
    (by decide) (by decide) (by decide)

/-- C6 counterexample: ids are reused — `b` is created with id 2
(`max_id + 1`), destroyed, and the next create hands id 2 to the
different account `c` (`MAX(id)` shrinks when the top row is
deleted). -/
theorem c6_id_reuse_counterexample :
    make_new [] (toL "a") .asset none none = .ok [⟨1, toL "a", .asset, none⟩] ∧
    make_new [⟨1, toL "a", .asset, none⟩] (toL "b") .asset none none =
      .ok [⟨1, toL "a", .asset, none⟩, ⟨2, toL "b", .asset, none⟩] ∧
    destroy [⟨1, toL "a", .asset, none⟩, ⟨2, toL "b", .asset, none⟩] 2 =
      .ok [⟨1, toL "a", .asset, none⟩] ∧
    make_new [⟨1, toL "a", .asset, none⟩] (toL "c") .asset none none =
      .ok [⟨1, toL "a", .asset, none⟩, ⟨2, toL "c", .asset, none⟩] := by
  decide

/-- C6 (amended): a successful create appends one row with id
`max_id + 1` (1 on the empty store) and keeps the ids pairwise
distinct; ids are only fresh with respect to the rows present at
create time, not across destroys. -/
theorem c6_fresh_id_amended {s : Store} (nm : Path) (t : AcctType) (par : Option Nat)
    (d : Option Path) {s' : Store} (hids : NodupIds s)
    (hok : make_new s nm t par d = .ok s') :
    (∃ r : Rec, s' = s ++ [r] ∧ r.id = max_id s + 1) ∧ NodupIds s' ∧
      (s = [] → ∃ r : Rec, s' = [r] ∧ r.id = 1) := by
  rcases make_new_ok_fresh hok with ⟨r, hs', hid, -⟩
  refine ⟨⟨r, hs', hid⟩, ?_, ?_⟩
  · rw [hs']
    have hids' : (s.map (fun u => u.id)).Nodup := hids
    show ((s ++ [r]).map (fun u => u.id)).Nodup
    refine nodup_map_concat hids' r ?_
    intro r' hr'
    have hle := le_max_id hr'
    show r'.id ≠ r.id
    rw [hid]
    omega
  · intro hnil
    subst hnil
    refine ⟨r, by simpa using hs', ?_⟩
    rw [hid]
    rfl

/-- C6 witness: creating on the empty store yields id 1. -/
theorem c6_fresh_id_witness :
    (∃ r : Rec, ([⟨1, toL "a", .asset, none⟩] : Store) = [] ++ [r] ∧
      r.id = max_id [] + 1) ∧
    NodupIds [⟨1, toL "a", .asset, none⟩] ∧
    (([] : Store) = [] →
      ∃ r : Rec, ([⟨1, toL "a", .asset, none⟩] : Store) = [r] ∧ r.id = 1) :=
  @c6_fresh_id_amended [] (toL "a") AcctType.asset none none
    [⟨1, toL "a", AcctType.asset, none⟩] (by decide) (by decide)

/-- C7: every raising run of a single-record operation — any create,
any rename or reparent of an account with nothing below it, any
set-type, any destroy — hands back the store exactly as it was: all
checks precede the write. -/
theorem c7_err_no_write {s : Store} (hids : NodupIds s) (hpaths : NodupPaths s) :
    (∀ nm t par d e t', make_new s nm t par d = .err e t' → t' = s) ∧
    (∀ i ri n e t', find_by_id s i = some ri →
      (∀ r ∈ s, ¬(ri.full_path ++ [sep] <+: r.full_path)) →
      set_name s i n = .err e t' → t' = s) ∧
    (∀ i ri par e t', find_by_id s i = some ri →
      (∀ r ∈ s, ¬(ri.full_path ++ [sep] <+: r.full_path)) →
      set_parent s i par = .err e t' → t' = s) ∧
    (∀ i t e t', set_account_type s i t = .err e t' → t' = s) ∧
    (∀ i e t', destroy s i = .err e t' → t' = s) := by
  refine ⟨?_, ?_, ?_, ?_, ?_⟩
  · intro nm t par d e t' h
    exact make_new_err h
  · intro i ri n e t' hfind hnd h
    unfold set_name at h
    split at h
    · injection h with h1 h2
      exact h2.symm
    · split at h
      · injection h with h1 h2
        exact h2.symm
      · rename_i ri₀ heq
        have hreq : ri₀ = ri := by
          have := heq.symm.trans hfind
          injection this
        rw [hreq] at h
        unfold set_full_path at h
        exact sfp_err_nodesc _ _ hids hpaths hfind hnd h
  · intro i ri par e t' hfind hnd h
    unfold set_parent at h
    split at h
    · injection h with h1 h2
      exact h2.symm
    · rename_i ri₀ heq
      have hreq : ri₀ = ri := by
        have := heq.symm.trans hfind
        injection this
      rw [hreq] at h
      split at h
      · unfold set_full_path at h
        exact sfp_err_nodesc _ _ hids hpaths hfind hnd h
      · split at h
        · injection h with h1 h2
          exact h2.symm
        · unfold set_full_path at h
          exact sfp_err_nodesc _ _ hids hpaths hfind hnd h
  · intro i t e t' h
    unfold set_account_type at h
    repeat' split at h
    all_goals try (injection h with h1 h2; exact h2.symm)
    all_goals simp at h
  · intro i e t' h
    unfold destroy at h
    repeat' split at h
    all_goals try (injection h with h1 h2; exact h2.symm)
    all_goals simp at h

/-- C7 witness: a concrete refused destroy (the account still has a
child) hands back the same three-row store. -/
theorem c7_witness :
    ([⟨1, toL "a", .asset, none⟩, ⟨2, toL "a/b", .asset, none⟩,
      ⟨3, toL "b", .income, none⟩] : Store) =
    [⟨1, toL "a", .asset, none⟩, ⟨2, toL "a/b", .asset, none⟩,
      ⟨3, toL "b", .income, none⟩] :=
  (@c7_err_no_write [⟨1, toL "a", .asset, none⟩, ⟨2, toL "a/b", .asset, none⟩,
      ⟨3, toL "b", .income, none⟩] (by decide) (by decide)).2.2.2.2 1 Err.hasChildren
    [⟨1, toL "a", .asset, none⟩, ⟨2, toL "a/b", .asset, none⟩,
      ⟨3, toL "b", .income, none⟩] (by decide)

/-- C10 counterexample: an account with an empty full path is
reachable (`valid_name` accepts the empty string), and on it
`set_full_path` with the current — empty — value raises `InvalidPath`
instead of returning as a no-op: the emptiness check precedes the
no-op check. -/
theorem c10_empty_path_counterexample :
    make_new [] (toL "") .asset none none = .ok [⟨1, toL "", .asset, none⟩] ∧
    set_full_path [⟨1, toL "", .asset, none⟩] 1 (toL "") =
      .err .emptyPath [⟨1, toL "", .asset, none⟩] := by
  decide

/-- C10 (amended): on an account whose current full path is non-empty,
`set_full_path` at the current value — and hence `set_name` at the
current name — returns success with the store untouched, before any
duplicate, parent, type or validity check. -/
theorem c10_noop_amended {s : Store} {i : Nat} {ri : Rec}
    (hfind : find_by_id s i = some ri) (hne : ri.full_path ≠ []) :
    set_full_path s i ri.full_path = .ok s ∧
    set_name s i (lastSeg ri.full_path) = .ok s := by
  have h1 : set_full_path s i ri.full_path = .ok s := by
    unfold set_full_path
    exact sfp_go_succ_noop s.length hfind hne
  refine ⟨h1, ?_⟩
  have hvn : valid_name (lastSeg ri.full_path) = true := by
    unfold valid_name
    have hc : (lastSeg ri.full_path).contains sep = false := by
      simpa using sep_not_mem_lastSeg ri.full_path
    rw [hc]
    rfl
  have hsn : set_name s i (lastSeg ri.full_path) =
      set_full_path s i (concatenate_path ((split_path ri.full_path).dropLast
        ++ [lastSeg ri.full_path])) := by
    unfold set_name
    rw [if_neg (by simp [hvn]), hfind]
  rw [hsn]
  have hseg : (split_path ri.full_path).dropLast ++ [lastSeg ri.full_path] =
      split_path ri.full_path := by
    unfold lastSeg
    rw [List.getLastD_eq_getLast?, List.getLast?_eq_getLast _ (split_path_ne_nil _)]
    exact List.dropLast_append_getLast (split_path_ne_nil _)
  rw [hseg, concat_split]
  exact h1

/-- C10 witness: the no-op on the concrete account `x/y`. -/
theorem c10_noop_witness :
    set_full_path [⟨1, toL "x/y", .asset, none⟩] 1 (toL "x/y") =
      .ok [⟨1, toL "x/y", .asset, none⟩] ∧
    set_name [⟨1, toL "x/y", .asset, none⟩] 1 (lastSeg (toL "x/y")) =
      .ok [⟨1, toL "x/y", .asset, none⟩] :=
  @c10_noop_amended [⟨1, toL "x/y", .asset, none⟩] 1 ⟨1, toL "x/y", .asset, none⟩
    (by decide) (by decide)

end NCountr
